import Mathlib

/-!
Shallow embedding of the batch-transcoding core of `add-logo-processor-rust`
(`src-tauri/src`), covering the work partitioner
(`handlers/image_handler.rs`), the process registry
(`handlers/process_handler.rs`), the progress tracker
(`handlers/progress_handler.rs`) and the ffmpeg command builder
(`image/image_handler.rs`).  Machine integers (`usize`, `u32`, `u64`) are
modelled as `Nat` (none of the modelled quantities can overflow on the
inputs considered), `f64` as `ℚ`, and fallible Rust functions as `Except`
or `Option` values.  `HashMap` contents are modelled as association lists;
where the iteration order of a `HashMap` is observable, theorems quantify
over all permutations of the association list.
-/

/- ------------------------------------------------------------------ -/
/- Basic data model: `Resolution`, `PathBuf`, `Image`, `BatchKey`.     -/
/- ------------------------------------------------------------------ -/

/-- `media_structs.rs` / `media/types.rs`: a resolution is a pair of `u32`. -/
structure Resolution where
  width : Nat
  height : Nat
deriving DecidableEq

/-- Model of `std::path::PathBuf` as far as the code observes it:
`to_str` may fail (non-UTF-8 path), `file_stem().and_then(|s| s.to_str())`
may fail, and joining a (valid-UTF-8 Rust) `String` onto a path keeps the
directory part's representability. -/
structure PathBuf where
  utf8 : Bool
  str : String
  stemUtf8 : Bool
  stem : String
deriving DecidableEq

/-- `PathBuf::to_str` returns `Some` exactly for UTF-8 representable paths. -/
def PathBuf.to_str (p : PathBuf) : Option String :=
  if p.utf8 then some p.str else none

/-- `path.file_stem().and_then(|s| s.to_str())`. -/
def PathBuf.file_stem_str (p : PathBuf) : Option String :=
  if p.stemUtf8 then some p.stem else none

/-- `PathBuf::join` with a Rust `String` file name: the result is UTF-8
representable iff the directory part is. -/
def PathBuf.join (p : PathBuf) (name : String) : PathBuf :=
  { utf8 := p.utf8, str := p.str ++ "/" ++ name, stemUtf8 := true, stem := name }

/-- The image record used by the handlers: source path, detected (then
settings-applied) resolution, file size in bytes, and target file type. -/
structure Image where
  file_path : PathBuf
  resolution : Resolution
  file_size : Nat
  file_type : String
deriving DecidableEq

/-- `handlers/image_handler.rs`: `struct BatchKey { resolution, file_type }`. -/
structure BatchKey where
  resolution : Resolution
  file_type : String
deriving DecidableEq

/-- The `BatchKey` built from an image in `process_images_from_image_list`. -/
def image_batch_key (image : Image) : BatchKey :=
  { resolution := image.resolution, file_type := image.file_type }

/-- Rust `usize::div_ceil` (for a positive divisor). -/
def divCeil (a b : Nat) : Nat := (a + b - 1) / b

/- ------------------------------------------------------------------ -/
/- Grouping (`process_images_from_image_list`, lines 126–134):         -/
/- `batches.entry(key).or_default().push(image)`.                      -/
/- ------------------------------------------------------------------ -/

/-- One `entry(key).or_default().push(image)` step on the association-list
view of the `HashMap`: append to the existing group, or create it. -/
def add_to_entry : List (BatchKey × List Image) → BatchKey → Image → List (BatchKey × List Image)
  | [], key, image => [(key, [image])]
  | kv :: rest, key, image =>
    if kv.1 = key then (kv.1, kv.2 ++ [image]) :: rest
    else kv :: add_to_entry rest key image

/-- The grouping loop of `process_images_from_image_list`: group the image
list by `(resolution, file_type)`.  The association list records the
`HashMap` contents (in first-insertion order; theorems that depend on the
map's iteration order quantify over permutations of this list). -/
def group_images_by_key (image_list : List Image) : List (BatchKey × List Image) :=
  image_list.foldl (fun batches image => add_to_entry batches (image_batch_key image) image) []

/- ------------------------------------------------------------------ -/
/- `split_batches_optimally` (`handlers/image_handler.rs` 238–308).    -/
/- ------------------------------------------------------------------ -/

/-- `images.sort_by(|a, b| b.file_size.cmp(&a.file_size))`: stable sort,
descending by file size.  (A stable sort's output is uniquely determined
by the comparator, so the structurally recursive `insertionSort` models
Rust's stable `sort_by` exactly.) -/
def sort_by_file_size_desc (images : List Image) : List Image :=
  List.insertionSort (fun a b => b.file_size ≤ a.file_size) images

/-- One iteration of the round-robin loop
`splits[index % num_splits].push(image)`. -/
def rr_push (num_splits : Nat) (splits : List (List Image)) (p : Nat × Image) : List (List Image) :=
  splits.set (p.1 % num_splits) (splits.getD (p.1 % num_splits) [] ++ [p.2])

/-- `let mut splits = vec![Vec::new(); num_splits];
for (index, image) in images.into_iter().enumerate() {
  splits[index % num_splits].push(image); }` -/
def split_round_robin (images : List Image) (num_splits : Nat) : List (List Image) :=
  images.enum.foldl (rr_push num_splits) (List.replicate num_splits [])

/-- `work_units.iter_mut().rev().find(|(key, _)| key == &batch_key)`
followed by `last_unit.1.extend(split)`: extend the last unit with the
given key, reporting `none` when no unit has that key. -/
def extend_last_with_key (batch_key : BatchKey) (split : List Image) :
    List (BatchKey × List Image) → Option (List (BatchKey × List Image))
  | [] => none
  | u :: rest =>
    match extend_last_with_key batch_key split rest with
    | some rest2 => some (u :: rest2)
    | none => if u.1 = batch_key then some ((u.1, u.2 ++ split) :: rest) else none

/-- The undersized-split branch: merge into the last work unit of the same
key, or, absent one, create a new unit anyway. -/
def merge_with_last_unit (work_units : List (BatchKey × List Image)) (batch_key : BatchKey)
    (split : List Image) : List (BatchKey × List Image) :=
  match extend_last_with_key batch_key split work_units with
  | some wu => wu
  | none => work_units ++ [(batch_key, split)]

/-- The body of `for split in splits { ... }`: a non-empty split of at
least `min_batch_size` items becomes its own unit; a smaller non-empty
split merges with the last same-key unit; an empty split is dropped. -/
def split_step (batch_key : BatchKey) (min_batch_size : Nat)
    (work_units : List (BatchKey × List Image)) (split : List Image) :
    List (BatchKey × List Image) :=
  if split ≠ [] ∧ min_batch_size ≤ split.length then work_units ++ [(batch_key, split)]
  else if split ≠ [] then merge_with_last_unit work_units batch_key split
  else work_units

/-- The body of `for (batch_key, mut images) in batches { ... }`: keep a
small group as one unit, otherwise sort it by file size and distribute it
round-robin over `num_splits` buckets.  (`actual_split_size` in the source
is computed only for logging.) -/
def group_step (target_images_per_unit min_batch_size : Nat)
    (work_units : List (BatchKey × List Image)) (kv : BatchKey × List Image) :
    List (BatchKey × List Image) :=
  if kv.2.length ≤ target_images_per_unit then work_units ++ [kv]
  else
    let num_splits := divCeil kv.2.length target_images_per_unit
    let sorted_images := sort_by_file_size_desc kv.2
    let splits := split_round_robin sorted_images num_splits
    splits.foldl (split_step kv.1 min_batch_size) work_units

/-- `work_units.sort_by(|a, b| b.1.len().cmp(&a.1.len()))`: stable sort,
descending by item count. -/
def sort_units_by_size_desc (work_units : List (BatchKey × List Image)) :
    List (BatchKey × List Image) :=
  List.insertionSort (fun a b => b.2.length ≤ a.2.length) work_units

/-- `split_batches_optimally` (`handlers/image_handler.rs`, lines 238–308).
The `batches` association list stands for the `HashMap` in whichever order
the map iterates it. -/
def split_batches_optimally (batches : List (BatchKey × List Image)) (target_threads : Nat) :
    List (BatchKey × List Image) :=
  let total_images := (batches.map (fun kv => kv.2.length)).sum
  let target_images_per_unit := divCeil total_images target_threads
  let min_batch_size := max 1 (target_images_per_unit / 4)
  sort_units_by_size_desc
    (batches.foldl (group_step target_images_per_unit min_batch_size) [])

/-- Abbreviation used by the theorems: the `target_images_per_unit` value
computed inside `split_batches_optimally`. -/
def target_per_unit (batches : List (BatchKey × List Image)) (target_threads : Nat) : Nat :=
  divCeil ((batches.map (fun kv => kv.2.length)).sum) target_threads

/-- Abbreviation used by the theorems: the `min_batch_size` value computed
inside `split_batches_optimally`. -/
def min_unit_size (batches : List (BatchKey × List Image)) (target_threads : Nat) : Nat :=
  max 1 (target_per_unit batches target_threads / 4)

/-- Total number of images in a list of units (or groups). -/
def units_size (work_units : List (BatchKey × List Image)) : Nat :=
  (work_units.map (fun kv => kv.2.length)).sum


/- ------------------------------------------------------------------ -/
/- `ProcessManager` (`handlers/process_handler.rs`).                   -/
/- ------------------------------------------------------------------ -/

/-- The state behind `PROCESS_MANAGER`: the registry `process_ids`
(`HashMap<u64, u32>`, modelled as an association list of
logical id ↦ OS pid), the `next_id` counter and the cancel flag. -/
structure ProcessManager where
  process_ids : List (Nat × Nat)
  next_id : Nat
  cancel_flag : Bool
deriving DecidableEq

/-- `ProcessManager::new()`. -/
def ProcessManager.new : ProcessManager :=
  { process_ids := [], next_id := 0, cancel_flag := false }

/-- `ProcessManager::register_process_by_pid`: hand out `next_id`,
increment it, insert the mapping, return the id. -/
def register_process_by_pid (pid : Nat) (m : ProcessManager) : ProcessManager × Nat :=
  ({ m with next_id := m.next_id + 1, process_ids := m.process_ids ++ [(m.next_id, pid)] },
   m.next_id)

/-- `ProcessManager::unregister_process`: `HashMap::remove(&id)`; a present
id is removed (and logged with `info!`), an absent one only logs a
`warn!`.  The returned flag records whether the warning branch ran; the
Rust function returns `()` and cannot signal an error either way. -/
def unregister_process (id : Nat) (m : ProcessManager) : ProcessManager × Bool :=
  match m.process_ids.lookup id with
  | some _ => ({ m with process_ids := m.process_ids.eraseP (fun kv => kv.1 == id) }, false)
  | none => (m, true)

/-- `ProcessManager::request_cancel`. -/
def request_cancel (m : ProcessManager) : ProcessManager :=
  { m with cancel_flag := true }

/-- `ProcessManager::is_cancelled`. -/
def is_cancelled (m : ProcessManager) : Bool := m.cancel_flag

/-- `ProcessManager::kill_all_processes`.  The OS-specific
`kill_process_by_pid` (SIGKILL / `taskkill`) is abstracted as the oracle
`kill : pid → Except String Unit`.  The function sets the cancel flag,
collects a formatted message for every failed kill into `errors`, clears
the registry, logs a warning when `errors` is non-empty — and returns
`Ok(())` on every path. -/
def kill_all_processes (kill : Nat → Except String Unit) (m : ProcessManager) :
    ProcessManager × Except String Unit :=
  let m1 := { m with cancel_flag := true }
  if m1.process_ids.length = 0 then (m1, Except.ok ())
  else
    let errors := m1.process_ids.filterMap (fun kv =>
      match kill kv.2 with
      | Except.ok _ => none
      | Except.error e =>
        some ("Process " ++ toString kv.1 ++ " (PID: " ++ toString kv.2 ++ "): " ++ e))
    let m2 := { m1 with process_ids := [] }
    -- `if !errors.is_empty() { warn!(...) }` only logs; both paths fall
    -- through to `Ok(())`.
    (m2, Except.ok ())

/-- `ProcessManager::clear`: empty the registry and reset the cancel flag
(`next_id` is left as is). -/
def ProcessManager.clear (m : ProcessManager) : ProcessManager :=
  { m with process_ids := [], cancel_flag := false }

/-- The operations a client can run against the shared `PROCESS_MANAGER`.
`killAll` carries the OS kill oracle for that call. -/
inductive PmOp where
  | register (pid : Nat)
  | unregister (id : Nat)
  | requestCancel
  | clear
  | killAll (kill : Nat → Except String Unit)

/-- Run one operation, returning the new state and the id handed out when
the operation was a `register`. -/
def run_pm_op (m : ProcessManager) : PmOp → ProcessManager × Option Nat
  | PmOp.register pid => let r := register_process_by_pid pid m; (r.1, some r.2)
  | PmOp.unregister id => ((unregister_process id m).1, none)
  | PmOp.requestCancel => (request_cancel m, none)
  | PmOp.clear => (m.clear, none)
  | PmOp.killAll kill => ((kill_all_processes kill m).1, none)

/-- Run a sequence of operations, collecting the ids returned by the
`register` calls in order. -/
def run_pm_ops (m : ProcessManager) : List PmOp → ProcessManager × List Nat
  | [] => (m, [])
  | op :: ops =>
    let r := run_pm_op m op
    let rest := run_pm_ops r.1 ops
    (rest.1, (match r.2 with | some id => [id] | none => []) ++ rest.2)

/- ------------------------------------------------------------------ -/
/- `ProgressTracker` (`handlers/progress_handler.rs`).                 -/
/- ------------------------------------------------------------------ -/

/-- `ProgressInfo`: the `f64` fields are modelled as `ℚ`, `Duration` as a
non-negative number of seconds. -/
structure ProgressInfo where
  current : Nat
  total : Nat
  percentage : ℚ
  elapsed_time : ℚ
  estimated_remaining : Option ℚ
  items_per_second : ℚ
  status : String
deriving DecidableEq

/-- `ProgressInfo::new`. -/
def ProgressInfo.new (status : String) (total : Option Nat) : ProgressInfo :=
  { current := 0, total := total.getD 0, percentage := 0, elapsed_time := 0,
    estimated_remaining := none, items_per_second := 0, status := status }

/-- `ProgressTracker::update_calculations`, instrumented: every division
the Rust code performs goes through `trackedDiv`, which also reports
whether its divisor was zero.  `elapsed` is the value of
`self.start_time.elapsed()` at this call.  Returns the updated info and
`true` iff some division had a zero divisor. -/
def trackedDiv (a b : ℚ) : ℚ × Bool := (a / b, decide (b = 0))

/-- `update_calculations` itself (source lines 145–164). -/
def update_calculations (elapsed : ℚ) (info : ProgressInfo) : ProgressInfo × Bool :=
  let info := { info with elapsed_time := elapsed }
  let pct :=
    if 0 < info.total then
      let d := trackedDiv (info.current : ℚ) (info.total : ℚ)
      (d.1 * 100, d.2)
    else ((0 : ℚ), false)
  let info := { info with percentage := pct.1 }
  let rate :=
    if 0 < info.elapsed_time then
      let d := trackedDiv (info.current : ℚ) info.elapsed_time
      (d.1, d.2)
    else (info.items_per_second, false)
  let info := { info with items_per_second := rate.1 }
  let er :=
    if 0 < info.current ∧ info.current < info.total ∧ 0 < info.items_per_second then
      let remaining_images : Nat := info.total - info.current
      let d := trackedDiv (remaining_images : ℚ) info.items_per_second
      (some d.1, d.2)
    else ((none : Option ℚ), false)
  ({ info with estimated_remaining := er.1 }, pct.2 || rate.2 || er.2)

/-- `ProgressTracker::increment`: `current += value.unwrap_or(1)` then
recompute. -/
def ProgressTracker.increment (value : Option Nat) (elapsed : ℚ) (info : ProgressInfo) :
    ProgressInfo :=
  (update_calculations elapsed { info with current := info.current + value.getD 1 }).1

/-- `ProgressTracker::set_current`. -/
def set_current (current : Nat) (elapsed : ℚ) (info : ProgressInfo) : ProgressInfo :=
  (update_calculations elapsed { info with current := current }).1

/-- `ProgressTracker::set_total`. -/
def set_total (total : Nat) (elapsed : ℚ) (info : ProgressInfo) : ProgressInfo :=
  (update_calculations elapsed { info with total := total }).1

/-- `ProgressTracker::set_status` (no recomputation). -/
def set_status (status : String) (info : ProgressInfo) : ProgressInfo :=
  { info with status := status }

/-- One tracker operation; each state-changing call observes the elapsed
time at which it runs. -/
inductive TrackerOp where
  | increment (value : Option Nat) (elapsed : ℚ)
  | setCurrent (current : Nat) (elapsed : ℚ)
  | setTotal (total : Nat) (elapsed : ℚ)
  | setStatus (status : String)

/-- Apply one tracker operation. -/
def run_tracker_op (info : ProgressInfo) : TrackerOp → ProgressInfo
  | TrackerOp.increment v e => ProgressTracker.increment v e info
  | TrackerOp.setCurrent c e => set_current c e info
  | TrackerOp.setTotal t e => set_total t e info
  | TrackerOp.setStatus s => set_status s info

/-- Apply a sequence of tracker operations to a fresh tracker state. -/
def run_tracker_ops (info : ProgressInfo) (ops : List TrackerOp) : ProgressInfo :=
  ops.foldl run_tracker_op info

/- ------------------------------------------------------------------ -/
/- Command builder (`image/image_handler.rs`, lines 334–464).          -/
/- ------------------------------------------------------------------ -/

/-- `media_structs.rs`: a logo anchor position. -/
structure Position where
  x : Nat
  y : Nat
deriving DecidableEq

/-- The fields of `Logo` that the command builder reads. -/
structure Logo where
  file_path : PathBuf
  position : Position
  compatible_image_resolution : Resolution
deriving DecidableEq

/-- `ffmpeg_sidecar::command::FfmpegCommand`, modelled as its ordered
argument list.  (`hide_banner` is only applied on the Windows build and is
not modelled.) -/
structure FfmpegCommand where
  args : List String
deriving DecidableEq

/-- `FfmpegCommand::new()`. -/
def FfmpegCommand.new : FfmpegCommand := { args := [] }

/-- `cmd.args([...])`. -/
def FfmpegCommand.add_args (c : FfmpegCommand) (l : List String) : FfmpegCommand :=
  { args := c.args ++ l }

/-- `cmd.input(path)`: registers one `-i <path>` input. -/
def FfmpegCommand.input (c : FfmpegCommand) (path : String) : FfmpegCommand :=
  { args := c.args ++ ["-i", path] }

/-- `cmd.output(path)`: registers one output file. -/
def FfmpegCommand.output (c : FfmpegCommand) (path : String) : FfmpegCommand :=
  { args := c.args ++ [path] }

/-- `shared/ffmpeg_structs.rs`: a built command plus the number of images
it covers. -/
structure FfmpegBatchCommand where
  command : FfmpegCommand
  batch_size : Nat
deriving DecidableEq

/-- Rust `Option::ok_or`. -/
def ok_or {α : Type} (o : Option α) (e : String) : Except String α :=
  match o with
  | some a => Except.ok a
  | none => Except.error e

/-- Modelled from the spec: `apply_image_format_specific_args` lives in
`src/src-tauri/src/image/image_struct.rs`, which is absent from the
sources; per the spec, "format-specific flags (pixel format, compression
settings) are selected purely from the output extension", and the call
site uses it infallibly.  The concrete flag list is opaque to every claim
here, so it is modelled as a single flag derived from the extension. -/
def image_format_specific_args (target_file_type : String) : List String :=
  [target_file_type]

/-- The (infallible) call `apply_image_format_specific_args(target_file_type, &mut cmd)`. -/
def apply_image_format_specific_args (target_file_type : String) (c : FfmpegCommand) :
    FfmpegCommand :=
  c.add_args (image_format_specific_args target_file_type)

/-- One filter-graph stage for input `i` (source lines 422–438): scale,
plus an overlay referencing the shared logo input when a logo is present. -/
def filter_part (logo : Option Logo) (target_resolution : Resolution) (logo_idx i : Nat) :
    String :=
  match logo with
  | some logo_ref =>
    "[" ++ toString i ++ ":v]scale=" ++ toString target_resolution.width ++ ":" ++
      toString target_resolution.height ++ ":flags=fast_bilinear[scaled" ++ toString i ++
      "];[scaled" ++ toString i ++ "][" ++ toString logo_idx ++ ":v]overlay=" ++
      toString logo_ref.position.x ++ ":" ++ toString logo_ref.position.y ++
      "[out" ++ toString i ++ "]"
  | none =>
    "[" ++ toString i ++ ":v]scale=" ++ toString target_resolution.width ++ ":" ++
      toString target_resolution.height ++ ":flags=fast_bilinear[out" ++ toString i ++ "]"

/-- `create_image_ffmpeg_command` (source lines 384–464): cancellation
check, directory creation (a filesystem effect, infallible here), inputs,
filter graph, and one mapped output per input.  Every `ok_or` mirrors a
`?` in the source. -/
def create_image_ffmpeg_command (batch_data : List (Image × PathBuf)) (logo : Option Logo)
    (target_resolution : Resolution) (target_file_type : String) (cancelled : Bool) :
    Except String FfmpegBatchCommand := do
  if cancelled then
    Except.error "Operation cancelled by user"
  else do
    let cmd := FfmpegCommand.new
    let cmd := cmd.add_args ["-y", "-an", "-vsync", "0"]
    let cmd ← batch_data.foldlM (fun c p => do
      let s ← ok_or p.1.file_path.to_str "Invalid image file path"
      pure (c.input s)) cmd
    let cmd ← match logo with
      | some logo_ref => do
        let s ← ok_or logo_ref.file_path.to_str "Invalid logo file path"
        pure (cmd.input s)
      | none => pure cmd
    let logo_idx := batch_data.length
    let filter_parts := (List.range batch_data.length).map
      (filter_part logo target_resolution logo_idx)
    let filter_complex := String.intercalate ";" filter_parts
    let cmd := cmd.add_args ["-filter_complex", filter_complex]
    let cmd ← batch_data.enum.foldlM (fun c p => do
      let file_stem ← ok_or p.2.1.file_path.file_stem_str "Invalid file name"
      let new_filename := file_stem ++ "." ++ target_file_type
      let output_file := p.2.2.join new_filename
      let c := c.add_args ["-map", "[out" ++ toString p.1 ++ "]"]
      let c := apply_image_format_specific_args target_file_type c
      let s ← ok_or output_file.to_str "Invalid output file path"
      pure (c.output s)) cmd
    pure { command := cmd, batch_size := batch_data.length }

/-- `CHUNK_SIZE` (source line 356). -/
def CHUNK_SIZE : Nat := 10

/-- The body of `for chunk in batch_data.chunks(optimal_chunk_size)`:
commands already pushed stay in the list, and after a failing chunk no
further chunk is processed (`?` aborts the loop). -/
def chunk_step (logo : Option Logo) (target_resolution : Resolution)
    (target_file_type : String) (cancelled : Bool)
    (acc : List FfmpegBatchCommand × Except String Unit) (chunk : List (Image × PathBuf)) :
    List FfmpegBatchCommand × Except String Unit :=
  match acc.2 with
  | Except.error _ => acc
  | Except.ok _ =>
    match create_image_ffmpeg_command chunk logo target_resolution target_file_type cancelled with
    | Except.ok c => (acc.1 ++ [c], Except.ok ())
    | Except.error e => (acc.1, Except.error e)

/-- `create_image_ffmpeg_command_list` (source lines 334–382).  The
`&mut Vec` of commands is passed in and returned; the `Except` component
is the function's `Result`. -/
def create_image_ffmpeg_command_list (batch_data : List (Image × PathBuf)) (logo : Option Logo)
    (cancelled : Bool) (ffmpeg_command_list : List FfmpegBatchCommand) :
    List FfmpegBatchCommand × Except String Unit :=
  match batch_data with
  | [] => (ffmpeg_command_list, Except.ok ())
  | first :: _ =>
    let target_resolution := first.1.resolution
    let target_file_type := first.1.file_type
    if batch_data.length ≤ CHUNK_SIZE then
      match create_image_ffmpeg_command batch_data logo target_resolution target_file_type
          cancelled with
      | Except.ok c => (ffmpeg_command_list ++ [c], Except.ok ())
      | Except.error e => (ffmpeg_command_list, Except.error e)
    else
      let num_chunks := divCeil batch_data.length CHUNK_SIZE
      let optimal_chunk_size := divCeil batch_data.length num_chunks
      (batch_data.toChunks optimal_chunk_size).foldl
        (chunk_step logo target_resolution target_file_type cancelled)
        (ffmpeg_command_list, Except.ok ())

/- ------------------------------------------------------------------ -/
/- Arithmetic facts about `divCeil`.                                   -/
/- ------------------------------------------------------------------ -/

theorem divCeil_eq_succ (n t : Nat) (ht : 0 < t) (hn : 0 < n) :
    divCeil n t = (n - 1) / t + 1 := by
  unfold divCeil
  have h : n + t - 1 = (n - 1) + t := by omega
  rw [h, Nat.add_div_right _ ht]

theorem divCeil_pos (n t : Nat) (ht : 0 < t) (hn : 0 < n) : 0 < divCeil n t := by
  rw [divCeil_eq_succ n t ht hn]; exact Nat.succ_pos _

theorem divCeil_le (n t : Nat) (ht : 0 < t) : divCeil n t ≤ n := by
  rcases Nat.eq_zero_or_pos n with h | h
  · subst h
    unfold divCeil
    have h0 : 0 + t - 1 < t := by omega
    have := Nat.div_eq_of_lt h0
    omega
  · rw [divCeil_eq_succ n t ht h]
    have := Nat.div_le_self (n - 1) t
    have ht1 : (n - 1) / t ≤ n - 1 := Nat.div_le_self (n - 1) t
    omega

theorem two_le_divCeil (n t : Nat) (ht : 0 < t) (h : t < n) : 2 ≤ divCeil n t := by
  rw [divCeil_eq_succ n t ht (by omega)]
  have : 1 ≤ (n - 1) / t := (Nat.one_le_div_iff ht).mpr (by omega)
  omega

theorem pred_divCeil_mul_lt (n t : Nat) (ht : 0 < t) (hn : 0 < n) :
    (divCeil n t - 1) * t < n := by
  rw [divCeil_eq_succ n t ht hn]
  simp only [Nat.add_sub_cancel]
  have := Nat.div_mul_le_self (n - 1) t
  omega

/-- Core bucket bound: with `k = divCeil n t` splits of a group of `n > t`
items, every bucket holds at least `max 1 (t / 4)` items. -/
theorem min_size_le_div (n t : Nat) (ht : 0 < t) (h : t < n) :
    max 1 (t / 4) ≤ n / divCeil n t := by
  set k := divCeil n t with hk
  have hn : 0 < n := by omega
  have hk2 : 2 ≤ k := two_le_divCeil n t ht h
  have hkn : k ≤ n := divCeil_le n t ht
  have hlt : (k - 1) * t < n := pred_divCeil_mul_lt n t ht hn
  have h1 : 1 ≤ n / k := (Nat.one_le_div_iff (by omega)).mpr hkn
  have h2 : t / 4 ≤ n / k := by
    refine (Nat.le_div_iff_mul_le (by omega)).mpr ?_
    -- t / 4 * k ≤ (k * t) / 4 ≤ (k - 1) * t < n
    have ha : t / 4 * k ≤ k * t / 4 := by
      rw [Nat.mul_comm]
      exact Nat.mul_div_le_mul_div_assoc k t 4
    have h4 : k ≤ (k - 1) * 4 := by omega
    have hb : k * t ≤ 4 * ((k - 1) * t) := by
      calc k * t ≤ (k - 1) * 4 * t := Nat.mul_le_mul_right t h4
        _ = 4 * ((k - 1) * t) := by ring
    have hc : k * t / 4 ≤ (k - 1) * t := Nat.div_le_of_le_mul hb
    omega
  omega

/- ------------------------------------------------------------------ -/
/- Characterisation of the round-robin distribution.                   -/
/- ------------------------------------------------------------------ -/

/-- The sublist of `l` that the round-robin loop sends to bucket `i`,
when the items of `l` carry indices `m, m+1, …`. -/
def rr_sel (k i : Nat) : Nat → List Image → List Image
  | _, [] => []
  | m, x :: xs => (if m % k = i then [x] else []) ++ rr_sel k i (m + 1) xs

theorem getD_set_self {α : Type} (l : List α) (a : Nat) (v d : α) (h : a < l.length) :
    (l.set a v).getD a d = v := by
  simp [List.getD, List.getElem?_set_self, h]

theorem getD_set_ne {α : Type} (l : List α) (a b : Nat) (v d : α) (h : a ≠ b) :
    (l.set a v).getD b d = l.getD b d := by
  simp [List.getD, List.getElem?_set_ne h]

theorem rr_foldl_getD (k : Nat) (hk : 0 < k) :
    ∀ (l : List Image) (m : Nat) (spl : List (List Image)), spl.length = k →
      (List.foldl (rr_push k) spl (List.enumFrom m l)).length = k ∧
      ∀ i, i < k →
        (List.foldl (rr_push k) spl (List.enumFrom m l)).getD i [] =
          spl.getD i [] ++ rr_sel k i m l := by
  intro l
  induction l with
  | nil => intro m spl hlen; simpa [rr_sel] using hlen
  | cons x xs ih =>
    intro m spl hlen
    have hstep : List.enumFrom m (x :: xs) = (m, x) :: List.enumFrom (m + 1) xs := rfl
    rw [hstep, List.foldl_cons]
    have hmk : m % k < k := Nat.mod_lt m hk
    have hlen' : (rr_push k spl (m, x)).length = k := by
      simp [rr_push, hlen]
    obtain ⟨hl, hc⟩ := ih (m + 1) (rr_push k spl (m, x)) hlen'
    refine ⟨hl, fun i hi => ?_⟩
    rw [hc i hi]
    by_cases hmi : m % k = i
    · have : (rr_push k spl (m, x)).getD i [] = spl.getD i [] ++ [x] := by
        simp only [rr_push, hmi]
        exact getD_set_self spl i _ [] (by omega)
      rw [this, rr_sel]
      simp [hmi]
    · have : (rr_push k spl (m, x)).getD i [] = spl.getD i [] := by
        simp only [rr_push]
        exact getD_set_ne spl (m % k) i _ [] hmi
      rw [this, rr_sel]
      simp [hmi]

theorem sum_map_length_set {α : Type} :
    ∀ (spl : List (List α)) (a : Nat) (v : List α), a < spl.length →
      ((spl.set a v).map List.length).sum + (spl.getD a []).length =
        (spl.map List.length).sum + v.length := by
  intro spl
  induction spl with
  | nil => intro a v h; simp at h
  | cons s rest ih =>
    intro a v h
    cases a with
    | zero =>
      simp [List.getD_cons_zero]
      omega
    | succ a =>
      have h' : a < rest.length := by simpa using h
      have := ih a v h'
      have hset : (s :: rest).set (a + 1) v = s :: rest.set a v := rfl
      have hgd : (s :: rest).getD (a + 1) [] = rest.getD a [] := List.getD_cons_succ
      rw [hset, hgd]
      simp only [List.map_cons, List.sum_cons]
      omega

theorem rr_foldl_sum (k : Nat) (hk : 0 < k) :
    ∀ (l : List Image) (m : Nat) (spl : List (List Image)), spl.length = k →
      ((List.foldl (rr_push k) spl (List.enumFrom m l)).map List.length).sum =
        (spl.map List.length).sum + l.length := by
  intro l
  induction l with
  | nil => intro m spl _; simp
  | cons x xs ih =>
    intro m spl hlen
    have hstep : List.enumFrom m (x :: xs) = (m, x) :: List.enumFrom (m + 1) xs := rfl
    rw [hstep, List.foldl_cons]
    have hmk : m % k < k := Nat.mod_lt m hk
    have hlen' : (rr_push k spl (m, x)).length = k := by simp [rr_push, hlen]
    rw [ih (m + 1) _ hlen']
    have hset := sum_map_length_set spl (m % k) (spl.getD (m % k) [] ++ [x]) (by omega)
    simp only [List.length_append, List.length_cons, List.length_nil] at hset
    simp only [rr_push, List.length_cons]
    omega

theorem rr_sel_sublist (k i : Nat) :
    ∀ (m : Nat) (l : List Image) (x : Image), x ∈ rr_sel k i m l → x ∈ l := by
  intro m l
  induction l generalizing m with
  | nil => intro x hx; simp [rr_sel] at hx
  | cons y ys ih =>
    intro x hx
    rw [rr_sel] at hx
    rcases List.mem_append.mp hx with h | h
    · by_cases hmi : m % k = i
      · simp [hmi] at h; simp [h]
      · simp [hmi] at h
    · exact List.mem_cons_of_mem y (ih (m + 1) x h)

theorem rr_sel_length (k i : Nat) :
    ∀ (m : Nat) (l : List Image),
      (rr_sel k i m l).length = (List.range l.length).countP (fun j => decide ((m + j) % k = i)) := by
  intro m l
  induction l generalizing m with
  | nil => simp [rr_sel]
  | cons y ys ih =>
    rw [rr_sel, List.length_append, ih (m + 1)]
    have hmap : (List.range (ys.length + 1)) = 0 :: (List.range ys.length).map (· + 1) :=
      List.range_succ_eq_map ys.length
    rw [List.length_cons, hmap, List.countP_cons, List.countP_map]
    have hfun : ((fun j => decide ((m + j) % k = i)) ∘ (· + 1)) =
        (fun j => decide ((m + 1 + j) % k = i)) := by
      funext j
      simp only [Function.comp]
      congr 1
      have : m + (j + 1) = m + 1 + j := by omega
      rw [this]
    rw [hfun]
    by_cases hmi : m % k = i <;> simp [hmi] <;> omega

theorem succ_div_mod (n k : Nat) (hk : 0 < k) :
    ((n + 1) / k = if n % k + 1 = k then n / k + 1 else n / k) ∧
      ((n + 1) % k = if n % k + 1 = k then 0 else n % k + 1) := by
  have hd : k * (n / k) + n % k = n := Nat.div_add_mod n k
  have hr : n % k < k := Nat.mod_lt n hk
  have hsum : n + 1 = k * (n / k) + (n % k + 1) := by omega
  constructor
  · rw [hsum, Nat.mul_add_div hk]
    by_cases hc : n % k + 1 = k
    · rw [if_pos hc, hc, Nat.div_self hk]
    · have h0 : (n % k + 1) / k = 0 := Nat.div_eq_of_lt (by omega)
      rw [if_neg hc, h0]
      exact Nat.add_zero _
  · rw [hsum, Nat.mul_add_mod]
    by_cases hc : n % k + 1 = k
    · rw [if_pos hc, hc, Nat.mod_self]
    · have h0 : (n % k + 1) % k = n % k + 1 := Nat.mod_eq_of_lt (by omega)
      rw [if_neg hc, h0]

theorem countP_range_mod (k i : Nat) (hk : 0 < k) (hik : i < k) :
    ∀ n, (List.range n).countP (fun j => decide (j % k = i)) =
      n / k + if i < n % k then 1 else 0 := by
  intro n
  induction n with
  | zero => simp [Nat.zero_div]
  | succ n ih =>
    rw [List.range_succ, List.countP_append, ih]
    obtain ⟨hdiv, hmod⟩ := succ_div_mod n k hk
    rw [hdiv, hmod]
    have hr : n % k < k := Nat.mod_lt n hk
    simp only [List.countP_cons, List.countP_nil, decide_eq_true_eq]
    by_cases hc : n % k + 1 = k <;> by_cases hni : n % k = i <;>
      simp only [hc, hni, if_pos, if_neg, if_true, if_false] <;> split_ifs <;> omega

theorem split_round_robin_facts (imgs : List Image) (k : Nat) (hk : 0 < k) :
    (split_round_robin imgs k).length = k ∧
      ((split_round_robin imgs k).map List.length).sum = imgs.length ∧
      ∀ s ∈ split_round_robin imgs k, (∀ x ∈ s, x ∈ imgs) ∧ imgs.length / k ≤ s.length := by
  have hrepl : (List.replicate k ([] : List Image)).length = k := List.length_replicate k []
  have hchar := rr_foldl_getD k hk imgs 0 (List.replicate k []) hrepl
  have hsum := rr_foldl_sum k hk imgs 0 (List.replicate k []) hrepl
  have henum : imgs.enum = List.enumFrom 0 imgs := rfl
  have hdef : split_round_robin imgs k =
      List.foldl (rr_push k) (List.replicate k []) (List.enumFrom 0 imgs) := rfl
  refine ⟨by rw [hdef]; exact hchar.1, ?_, ?_⟩
  · rw [hdef, hsum]
    simp
  · intro s hs
    rw [hdef] at hs
    obtain ⟨i, hi, hget⟩ := List.mem_iff_getElem.mp hs
    have hik : i < k := by rw [hchar.1] at hi; exact hi
    have hgd : (List.foldl (rr_push k) (List.replicate k []) (List.enumFrom 0 imgs)).getD i [] = s := by
      rw [List.getD_eq_getElem?_getD, List.getElem?_eq_getElem hi, hget]
      rfl
    have hsel : s = rr_sel k i 0 imgs := by
      rw [← hgd, hchar.2 i hik]
      simp
    constructor
    · intro x hx
      exact rr_sel_sublist k i 0 imgs x (by rw [← hsel]; exact hx)
    · rw [hsel, rr_sel_length k i 0 imgs]
      have hfun : (fun j => decide ((0 + j) % k = i)) = (fun j => decide (j % k = i)) := by
        funext j; rw [Nat.zero_add]
      rw [hfun, countP_range_mod k i hk hik]
      split_ifs <;> omega

/- ------------------------------------------------------------------ -/
/- Facts about the unit-accumulation fold of `split_batches_optimally`.-/
/- ------------------------------------------------------------------ -/

theorem units_size_append (a b : List (BatchKey × List Image)) :
    units_size (a ++ b) = units_size a + units_size b := by
  unfold units_size
  rw [List.map_append, List.sum_append]

theorem units_size_perm {a b : List (BatchKey × List Image)} (h : a.Perm b) :
    units_size a = units_size b := by
  unfold units_size
  exact (h.map (fun kv => kv.2.length)).sum_eq

theorem extend_last_sum (key : BatchKey) (s : List Image) :
    ∀ wu wu', extend_last_with_key key s wu = some wu' →
      units_size wu' = units_size wu + s.length := by
  intro wu
  induction wu with
  | nil => intro wu' h; simp [extend_last_with_key] at h
  | cons u rest ih =>
    intro wu' h
    rw [extend_last_with_key] at h
    cases hrec : extend_last_with_key key s rest with
    | some rest2 =>
      rw [hrec] at h
      cases h
      have := ih rest2 hrec
      unfold units_size at *
      simp only [List.map_cons, List.sum_cons]
      omega
    | none =>
      rw [hrec] at h
      by_cases hk : u.1 = key
      · rw [if_pos hk] at h
        cases h
        unfold units_size
        simp only [List.map_cons, List.sum_cons, List.length_append]
        omega
      · rw [if_neg hk] at h
        exact absurd h (by simp)

theorem extend_last_mem (key : BatchKey) (s : List Image) :
    ∀ wu wu', extend_last_with_key key s wu = some wu' →
      ∀ e ∈ wu', e ∈ wu ∨ ∃ e', e' ∈ wu ∧ e'.1 = key ∧ e = (e'.1, e'.2 ++ s) := by
  intro wu
  induction wu with
  | nil => intro wu' h; simp [extend_last_with_key] at h
  | cons u rest ih =>
    intro wu' h e he
    rw [extend_last_with_key] at h
    cases hrec : extend_last_with_key key s rest with
    | some rest2 =>
      rw [hrec] at h
      cases h
      rcases List.mem_cons.mp he with rfl | hmem
      · exact Or.inl (List.mem_cons_self _ _)
      · rcases ih rest2 hrec e hmem with h1 | ⟨e', he', hk, heq⟩
        · exact Or.inl (List.mem_cons_of_mem u h1)
        · exact Or.inr ⟨e', List.mem_cons_of_mem u he', hk, heq⟩
    | none =>
      rw [hrec] at h
      by_cases hk : u.1 = key
      · rw [if_pos hk] at h
        cases h
        rcases List.mem_cons.mp he with rfl | hmem
        · exact Or.inr ⟨u, List.mem_cons_self _ _, hk, rfl⟩
        · exact Or.inl (List.mem_cons_of_mem u hmem)
      · rw [if_neg hk] at h
        exact absurd h (by simp)

theorem extend_last_none_iff (key : BatchKey) (s : List Image) :
    ∀ wu, extend_last_with_key key s wu = none ↔ ∀ e ∈ wu, e.1 ≠ key := by
  intro wu
  induction wu with
  | nil => simp [extend_last_with_key]
  | cons u rest ih =>
    rw [extend_last_with_key]
    cases hrec : extend_last_with_key key s rest with
    | some rest2 =>
      simp only [hrec]
      constructor
      · intro h; exact absurd h (by simp)
      · intro h
        have : ∀ e ∈ rest, e.1 ≠ key := fun e he => h e (List.mem_cons_of_mem u he)
        rw [← ih] at this
        rw [this] at hrec
        exact absurd hrec (by simp)
    | none =>
      simp only [hrec]
      by_cases hk : u.1 = key
      · rw [if_pos hk]
        constructor
        · intro h; exact absurd h (by simp)
        · intro h; exact absurd hk (h u (List.mem_cons_self _ _))
      · rw [if_neg hk]
        constructor
        · intro _ e he
          rcases List.mem_cons.mp he with rfl | hmem
          · exact hk
          · exact (ih.mp hrec) e hmem
        · intro _; rfl

theorem split_step_sum (key : BatchKey) (mbs : Nat) (wu : List (BatchKey × List Image))
    (s : List Image) :
    units_size (split_step key mbs wu s) = units_size wu + s.length := by
  unfold split_step
  by_cases h1 : s ≠ [] ∧ mbs ≤ s.length
  · rw [if_pos h1, units_size_append]
    unfold units_size
    simp
  · rw [if_neg h1]
    by_cases h2 : s ≠ []
    · rw [if_pos h2]
      unfold merge_with_last_unit
      cases hrec : extend_last_with_key key s wu with
      | some wu' => exact extend_last_sum key s wu wu' hrec
      | none =>
        rw [units_size_append]
        unfold units_size
        simp
    · rw [if_neg h2]
      push_neg at h2
      rw [h2]
      simp

theorem split_step_mem (key : BatchKey) (mbs : Nat) (wu : List (BatchKey × List Image))
    (s : List Image) :
    ∀ e ∈ split_step key mbs wu s,
      e ∈ wu ∨ (e.1 = key ∧ (e.2 = s ∨ ∃ e', e' ∈ wu ∧ e'.1 = key ∧ e.2 = e'.2 ++ s)) := by
  intro e he
  unfold split_step at he
  by_cases h1 : s ≠ [] ∧ mbs ≤ s.length
  · rw [if_pos h1] at he
    rcases List.mem_append.mp he with h | h
    · exact Or.inl h
    · simp at h
      subst h
      exact Or.inr ⟨rfl, Or.inl rfl⟩
  · rw [if_neg h1] at he
    by_cases h2 : s ≠ []
    · rw [if_pos h2] at he
      unfold merge_with_last_unit at he
      cases hrec : extend_last_with_key key s wu with
      | some wu' =>
        rw [hrec] at he
        rcases extend_last_mem key s wu wu' hrec e he with h | ⟨e', he', hk, heq⟩
        · exact Or.inl h
        · refine Or.inr ⟨by rw [heq, hk], Or.inr ⟨e', he', hk, by rw [heq]⟩⟩
      | none =>
        rw [hrec] at he
        rcases List.mem_append.mp he with h | h
        · exact Or.inl h
        · simp at h
          subst h
          exact Or.inr ⟨rfl, Or.inl rfl⟩
    · rw [if_neg h2] at he
      exact Or.inl he

theorem foldl_split_step_sum (key : BatchKey) (mbs : Nat) :
    ∀ (splits : List (List Image)) (wu : List (BatchKey × List Image)),
      units_size (List.foldl (split_step key mbs) wu splits) =
        units_size wu + (splits.map List.length).sum := by
  intro splits
  induction splits with
  | nil => intro wu; simp
  | cons s rest ih =>
    intro wu
    rw [List.foldl_cons, ih, split_step_sum]
    simp only [List.map_cons, List.sum_cons]
    omega

theorem group_step_sum (t mbs : Nat) (wu : List (BatchKey × List Image))
    (kv : BatchKey × List Image) (hok : kv.2.length ≤ t ∨ 0 < t) :
    units_size (group_step t mbs wu kv) = units_size wu + kv.2.length := by
  unfold group_step
  by_cases h : kv.2.length ≤ t
  · rw [if_pos h, units_size_append]
    unfold units_size
    simp
  · rw [if_neg h]
    have ht : 0 < t := by
      rcases hok with h1 | h1
      · omega
      · exact h1
    have hn : 0 < kv.2.length := by omega
    have hk : 0 < divCeil kv.2.length t := divCeil_pos _ _ ht hn
    have hsortlen : (sort_by_file_size_desc kv.2).length = kv.2.length := by
      unfold sort_by_file_size_desc
      exact (List.perm_insertionSort _ kv.2).length_eq
    obtain ⟨-, hsum, -⟩ :=
      split_round_robin_facts (sort_by_file_size_desc kv.2) (divCeil kv.2.length t) hk
    rw [foldl_split_step_sum, hsum, hsortlen]

/-- The size of every group is bounded by the total over all groups. -/
theorem group_le_total (batches : List (BatchKey × List Image)) (kv : BatchKey × List Image)
    (h : kv ∈ batches) : kv.2.length ≤ units_size batches := by
  unfold units_size
  exact List.le_sum_of_mem (List.mem_map_of_mem (fun kv => kv.2.length) h)

theorem foldl_group_step_sum (t mbs : Nat) :
    ∀ (batches : List (BatchKey × List Image)) (wu : List (BatchKey × List Image)),
      (∀ kv ∈ batches, kv.2.length ≤ t ∨ 0 < t) →
      units_size (List.foldl (group_step t mbs) wu batches) =
        units_size wu + units_size batches := by
  intro batches
  induction batches with
  | nil => intro wu _; simp [units_size]
  | cons kv rest ih =>
    intro wu hok
    rw [List.foldl_cons, ih _ (fun e he => hok e (List.mem_cons_of_mem kv he)),
      group_step_sum t mbs wu kv (hok kv (List.mem_cons_self _ _))]
    unfold units_size
    simp only [List.map_cons, List.sum_cons]
    omega

/- ------------------------------------------------------------------ -/
/- Facts about the grouping loop.                                      -/
/- ------------------------------------------------------------------ -/

theorem add_to_entry_size (key : BatchKey) (img : Image) :
    ∀ b, units_size (add_to_entry b key img) = units_size b + 1 := by
  intro b
  induction b with
  | nil => simp [add_to_entry, units_size]
  | cons kv rest ih =>
    rw [add_to_entry]
    by_cases h : kv.1 = key
    · rw [if_pos h]
      unfold units_size
      simp
      omega
    · rw [if_neg h]
      unfold units_size at *
      simp only [List.map_cons, List.sum_cons]
      omega

theorem group_images_size (image_list : List Image) :
    units_size (group_images_by_key image_list) = image_list.length := by
  suffices h : ∀ (l : List Image) (b : List (BatchKey × List Image)),
      units_size (l.foldl (fun batches image =>
        add_to_entry batches (image_batch_key image) image) b) = units_size b + l.length by
    have := h image_list []
    unfold group_images_by_key
    simpa [units_size] using this
  intro l
  induction l with
  | nil => intro b; simp
  | cons x xs ih =>
    intro b
    rw [List.foldl_cons, ih, add_to_entry_size]
    simp only [List.length_cons]
    omega

/-- Equation form of `split_batches_optimally`. -/
theorem split_batches_optimally_def (batches : List (BatchKey × List Image)) (T : Nat) :
    split_batches_optimally batches T =
      sort_units_by_size_desc
        (batches.foldl (group_step (target_per_unit batches T) (min_unit_size batches T)) []) :=
  rfl

/-- Every group is either within target, or the target is positive:
kills the degenerate `divCeil _ 0` path. -/
theorem group_step_hyp (batches : List (BatchKey × List Image)) (T : Nat) (hT : 1 ≤ T) :
    ∀ kv ∈ batches, kv.2.length ≤ target_per_unit batches T ∨ 0 < target_per_unit batches T := by
  intro kv hkv
  rcases Nat.eq_zero_or_pos (units_size batches) with h0 | h0
  · left
    have := group_le_total batches kv hkv
    omega
  · right
    unfold target_per_unit
    exact divCeil_pos _ _ hT (by unfold units_size at h0; exact h0)

/-- Claim C1 (sum invariant): for every input list of images and every
target unit count `T ≥ 1`, the work units returned by
`split_batches_optimally` have item counts summing to the number of input
images, whichever order the grouping `HashMap` iterates its groups in: no
image is dropped and none is duplicated. -/
theorem split_batches_sum_invariant (image_list : List Image)
    (batches : List (BatchKey × List Image)) (target_threads : Nat)
    (hT : 1 ≤ target_threads)
    (hperm : batches.Perm (group_images_by_key image_list)) :
    units_size (split_batches_optimally batches target_threads) = image_list.length := by
  rw [split_batches_optimally_def]
  have hsort : (sort_units_by_size_desc
      (batches.foldl (group_step (target_per_unit batches target_threads)
        (min_unit_size batches target_threads)) [])).Perm
      (batches.foldl (group_step (target_per_unit batches target_threads)
        (min_unit_size batches target_threads)) []) :=
    List.perm_insertionSort _ _
  rw [units_size_perm hsort,
    foldl_group_step_sum _ _ batches [] (group_step_hyp batches target_threads hT)]
  have h1 : units_size batches = units_size (group_images_by_key image_list) :=
    units_size_perm hperm
  rw [group_images_size] at h1
  simpa [units_size] using h1

/-- Example input for the witnesses: a representable path. -/
def exPath (s : String) : PathBuf := { utf8 := true, str := s, stemUtf8 := true, stem := s }

/-- Example image builder for the witnesses. -/
def exImg (w h size : Nat) (ft name : String) : Image :=
  { file_path := exPath name, resolution := { width := w, height := h },
    file_size := size, file_type := ft }

/-- Example image list: two 100×100 png images and one 200×200 jpeg. -/
def exList : List Image :=
  [exImg 100 100 5 "png" "a", exImg 100 100 3 "png" "b", exImg 200 200 7 "jpeg" "c"]

/-- Witness for C1 at a concrete input. -/
theorem split_batches_sum_invariant_witness :
    1 ≤ 2 ∧ (group_images_by_key exList).Perm (group_images_by_key exList) ∧
      units_size (split_batches_optimally (group_images_by_key exList) 2) = exList.length :=
  ⟨by decide, List.Perm.refl _,
    split_batches_sum_invariant exList (group_images_by_key exList) 2 (by decide)
      (List.Perm.refl _)⟩

/- ------------------------------------------------------------------ -/
/- Claim C3: minimum unit size for oversized groups.                   -/
/- ------------------------------------------------------------------ -/

theorem split_step_preserve (Q : BatchKey × List Image → Prop) (key : BatchKey) (mbs : Nat)
    (s : List Image) (wu : List (BatchKey × List Image))
    (hwu : ∀ e ∈ wu, Q e) (hnew : Q (key, s))
    (hext : ∀ b l, Q (b, l) → b = key → Q (b, l ++ s)) :
    ∀ e ∈ split_step key mbs wu s, Q e := by
  intro e he
  rcases split_step_mem key mbs wu s e he with h | ⟨hk, h2⟩
  · exact hwu e h
  · rcases h2 with h2 | ⟨e', he', hk', heq⟩
    · have heq : e = (key, s) := by
        cases e
        simp only at hk h2
        rw [hk, h2]
      rw [heq]
      exact hnew
    · have heq2 : e = (e'.1, e'.2 ++ s) := by
        cases e
        simp only at hk heq
        rw [hk, heq, hk']
      rw [heq2]
      have hq : Q (e'.1, e'.2) := by
        have : (e'.1, e'.2) = e' := rfl
        rw [this]
        exact hwu e' he'
      exact hext e'.1 e'.2 hq hk'

theorem foldl_split_step_preserve (Q : BatchKey × List Image → Prop) (key : BatchKey)
    (mbs : Nat) :
    ∀ (splits : List (List Image)) (wu : List (BatchKey × List Image)),
      (∀ e ∈ wu, Q e) → (∀ s ∈ splits, Q (key, s)) →
      (∀ b l s, s ∈ splits → Q (b, l) → b = key → Q (b, l ++ s)) →
      ∀ e ∈ List.foldl (split_step key mbs) wu splits, Q e := by
  intro splits
  induction splits with
  | nil => intro wu hwu _ _ e he; exact hwu e he
  | cons s rest ih =>
    intro wu hwu hnew hext e he
    rw [List.foldl_cons] at he
    refine ih (split_step key mbs wu s)
      (split_step_preserve Q key mbs s wu hwu (hnew s (List.mem_cons_self _ _))
        (fun b l hq hb => hext b l s (List.mem_cons_self _ _) hq hb))
      (fun s2 hs2 => hnew s2 (List.mem_cons_of_mem s hs2))
      (fun b l s2 hs2 hq hb => hext b l s2 (List.mem_cons_of_mem s hs2) hq hb) e he

theorem group_step_preserve_min (t : Nat) (key : BatchKey) (ht : 0 < t)
    (wu : List (BatchKey × List Image)) (kv : BatchKey × List Image)
    (hwu : ∀ u, (key, u) ∈ wu → max 1 (t / 4) ≤ u.length)
    (hkv : kv.1 = key → t < kv.2.length) :
    ∀ u, (key, u) ∈ group_step t (max 1 (t / 4)) wu kv → max 1 (t / 4) ≤ u.length := by
  intro u hu
  unfold group_step at hu
  by_cases hsmall : kv.2.length ≤ t
  · rw [if_pos hsmall] at hu
    rcases List.mem_append.mp hu with h | h
    · exact hwu u h
    · have h' : (key, u) = kv := by simpa using h
      have hk : kv.1 = key := by rw [← h']
      have hlen := hkv hk
      rw [← h'] at hlen
      have hlen2 : t < u.length := hlen
      omega
  · rw [if_neg hsmall] at hu
    set k := divCeil kv.2.length t with hkdef
    have hn : 0 < kv.2.length := by omega
    have hkpos : 0 < k := divCeil_pos _ _ ht hn
    have hsortlen : (sort_by_file_size_desc kv.2).length = kv.2.length := by
      unfold sort_by_file_size_desc
      exact (List.perm_insertionSort _ kv.2).length_eq
    obtain ⟨-, -, hfacts⟩ := split_round_robin_facts (sort_by_file_size_desc kv.2) k hkpos
    have hQ := foldl_split_step_preserve
      (fun e => e.1 = key → max 1 (t / 4) ≤ e.2.length) kv.1 (max 1 (t / 4))
      (split_round_robin (sort_by_file_size_desc kv.2) k) wu
      (fun e he hk => hwu e.2 (by rw [← hk]; exact he))
      ?_ ?_ (key, u) hu
    · exact hQ rfl
    · intro s hs _
      show max 1 (t / 4) ≤ s.length
      have hlb := (hfacts s hs).2
      rw [hsortlen] at hlb
      have := min_size_le_div kv.2.length t ht (by omega)
      rw [← hkdef] at this
      omega
    · intro b l s _ hq hb
      simp only at hq ⊢
      intro hbk
      have := hq hbk
      rw [List.length_append]
      omega

theorem foldl_group_step_preserve_min (t : Nat) (key : BatchKey) (ht : 0 < t) :
    ∀ (bl : List (BatchKey × List Image)) (wu : List (BatchKey × List Image)),
      (∀ u, (key, u) ∈ wu → max 1 (t / 4) ≤ u.length) →
      (∀ kv ∈ bl, kv.1 = key → t < kv.2.length) →
      ∀ u, (key, u) ∈ List.foldl (group_step t (max 1 (t / 4))) wu bl →
        max 1 (t / 4) ≤ u.length := by
  intro bl
  induction bl with
  | nil => intro wu hwu _ u hu; exact hwu u hu
  | cons kv rest ih =>
    intro wu hwu hbl u hu
    rw [List.foldl_cons] at hu
    exact ih (group_step t (max 1 (t / 4)) wu kv)
      (group_step_preserve_min t key ht wu kv hwu (hbl kv (List.mem_cons_self _ _)))
      (fun e he => hbl e (List.mem_cons_of_mem kv he)) u hu

theorem nodup_keys_eq {l : List (BatchKey × List Image)}
    (h : (l.map Prod.fst).Nodup) :
    ∀ {k : BatchKey} {a b : List Image}, (k, a) ∈ l → (k, b) ∈ l → a = b := by
  induction l with
  | nil => intro k a b ha _; simp at ha
  | cons kv rest ih =>
    intro k a b ha hb
    rw [List.map_cons, List.nodup_cons] at h
    rcases List.mem_cons.mp ha with h1 | h1 <;> rcases List.mem_cons.mp hb with h2 | h2
    · rw [← h1] at h2
      injection h2 with h3 h4
      exact h4.symm
    · exfalso
      apply h.1
      have hkk : k = kv.1 := by rw [← h1]
      rw [hkk] at h2
      exact List.mem_map.mpr ⟨(kv.1, b), h2, rfl⟩
    · exfalso
      apply h.1
      have hkk : k = kv.1 := by rw [← h2]
      rw [hkk] at h1
      exact List.mem_map.mpr ⟨(kv.1, a), h1, rfl⟩
    · exact ih h.2 h1 h2

theorem add_to_entry_keys (key : BatchKey) (img : Image) :
    ∀ b : List (BatchKey × List Image),
      (add_to_entry b key img).map Prod.fst =
        if key ∈ b.map Prod.fst then b.map Prod.fst else b.map Prod.fst ++ [key] := by
  intro b
  induction b with
  | nil => simp [add_to_entry]
  | cons kv rest ih =>
    rw [add_to_entry]
    by_cases h : kv.1 = key
    · rw [if_pos h]
      have : key ∈ (kv :: rest).map Prod.fst := by
        rw [List.map_cons, ← h]
        exact List.mem_cons_self _ _
      rw [if_pos this, List.map_cons, List.map_cons]
    · rw [if_neg h, List.map_cons, List.map_cons, ih]
      by_cases h2 : key ∈ rest.map Prod.fst
      · rw [if_pos h2, if_pos (List.mem_cons_of_mem kv.1 h2)]
      · rw [if_neg h2, if_neg ?_, List.cons_append]
        intro hc
        rcases List.mem_cons.mp hc with hc | hc
        · exact h hc.symm
        · exact h2 hc

theorem group_images_nodup_keys (image_list : List Image) :
    ((group_images_by_key image_list).map Prod.fst).Nodup := by
  suffices h : ∀ (l : List Image) (b : List (BatchKey × List Image)),
      (b.map Prod.fst).Nodup →
      ((l.foldl (fun batches image =>
        add_to_entry batches (image_batch_key image) image) b).map Prod.fst).Nodup by
    exact h image_list [] (by simp)
  intro l
  induction l with
  | nil => intro b hb; exact hb
  | cons x xs ih =>
    intro b hb
    rw [List.foldl_cons]
    refine ih _ ?_
    rw [add_to_entry_keys]
    by_cases h : image_batch_key x ∈ b.map Prod.fst
    · rw [if_pos h]; exact hb
    · rw [if_neg h]
      simp [List.nodup_append, hb, h]

/-- Claim C3 (min-size invariant): whenever a key's group holds more than
`target_per_unit = ceil(total / target_threads)` images, every work unit
`split_batches_optimally` produces for that key holds at least
`min_unit_size = max(1, target_per_unit / 4)` images (in fact without the
"lone oversized outlier" exception the spec allows). -/
theorem split_batches_min_size_invariant (image_list : List Image)
    (batches : List (BatchKey × List Image)) (target_threads : Nat)
    (key : BatchKey) (g : List Image)
    (hT : 1 ≤ target_threads)
    (hperm : batches.Perm (group_images_by_key image_list))
    (hmem : (key, g) ∈ batches)
    (hbig : target_per_unit batches target_threads < g.length) :
    ∀ u, (key, u) ∈ split_batches_optimally batches target_threads →
      min_unit_size batches target_threads ≤ u.length := by
  intro u hu
  set t := target_per_unit batches target_threads with htdef
  have ht : 0 < t := by
    have h1 : g.length ≤ units_size batches := group_le_total batches (key, g) hmem
    have h2 : 0 < units_size batches := by omega
    rw [htdef]
    unfold target_per_unit
    exact divCeil_pos _ _ hT (by unfold units_size at h2; exact h2)
  have hnodup : (batches.map Prod.fst).Nodup :=
    ((hperm.map Prod.fst).nodup_iff).mpr (group_images_nodup_keys image_list)
  have hkeyed : ∀ kv ∈ batches, kv.1 = key → t < kv.2.length := by
    intro kv hkv hk
    have hkv' : (key, kv.2) ∈ batches := by
      rw [← hk]
      exact hkv
    have := nodup_keys_eq hnodup hkv' hmem
    rw [this]
    exact hbig
  rw [split_batches_optimally_def] at hu
  have hu' : (key, u) ∈ batches.foldl
      (group_step (target_per_unit batches target_threads)
        (min_unit_size batches target_threads)) [] :=
    (List.perm_insertionSort _ _).mem_iff.mp hu
  have hmin : min_unit_size batches target_threads = max 1 (t / 4) := rfl
  rw [hmin] at hu' ⊢
  exact foldl_group_step_preserve_min t key ht batches [] (by simp) hkeyed u hu'

/-- Example image list for the C3/C7 witnesses: five png images (an
oversized group for `target_threads = 3`) and one jpeg image. -/
def exList3 : List Image :=
  [exImg 100 100 9 "png" "a", exImg 100 100 8 "png" "b", exImg 100 100 7 "png" "c",
   exImg 100 100 6 "png" "d", exImg 100 100 5 "png" "e", exImg 200 200 4 "jpeg" "f"]

/-- The png key of `exList3`. -/
def exKeyPng : BatchKey := { resolution := { width := 100, height := 100 }, file_type := "png" }

/-- The png group of `exList3` as built by the grouping loop. -/
def exGroupPng : List Image :=
  [exImg 100 100 9 "png" "a", exImg 100 100 8 "png" "b", exImg 100 100 7 "png" "c",
   exImg 100 100 6 "png" "d", exImg 100 100 5 "png" "e"]

/-- Witness for C3 at a concrete input: the five-image png group exceeds
`target_per_unit = 2`, and the singleton unit `[c]` it produces still
meets `min_unit_size = 1`. -/
theorem split_batches_min_size_invariant_witness :
    1 ≤ 3 ∧
      (group_images_by_key exList3).Perm (group_images_by_key exList3) ∧
      (exKeyPng, exGroupPng) ∈ group_images_by_key exList3 ∧
      target_per_unit (group_images_by_key exList3) 3 < exGroupPng.length ∧
      (exKeyPng, [exImg 100 100 7 "png" "c"]) ∈
        split_batches_optimally (group_images_by_key exList3) 3 ∧
      min_unit_size (group_images_by_key exList3) 3 ≤ [exImg 100 100 7 "png" "c"].length :=
  ⟨by decide, List.Perm.refl _, by decide, by decide, by decide,
    split_batches_min_size_invariant exList3 (group_images_by_key exList3) 3 exKeyPng
      exGroupPng (by decide) (List.Perm.refl _) (by decide) (by decide)
      [exImg 100 100 7 "png" "c"] (by decide)⟩

/- ------------------------------------------------------------------ -/
/- Claim C7: every image in a unit carries the unit's key.             -/
/- ------------------------------------------------------------------ -/

theorem group_step_preserve_keyed (t mbs : Nat) (wu : List (BatchKey × List Image))
    (kv : BatchKey × List Image)
    (hwu : ∀ e ∈ wu, ∀ img ∈ e.2, image_batch_key img = e.1)
    (hkv : ∀ img ∈ kv.2, image_batch_key img = kv.1) :
    ∀ e ∈ group_step t mbs wu kv, ∀ img ∈ e.2, image_batch_key img = e.1 := by
  intro e he
  unfold group_step at he
  by_cases hsmall : kv.2.length ≤ t
  · rw [if_pos hsmall] at he
    rcases List.mem_append.mp he with h | h
    · exact hwu e h
    · have : e = kv := by simpa using h
      rw [this]
      exact hkv
  · rw [if_neg hsmall] at he
    set k := divCeil kv.2.length t with hkdef
    rcases Nat.eq_zero_or_pos k with hk0 | hkpos
    · rw [hk0] at he
      have hempty : ∀ l : List (Nat × Image), List.foldl (rr_push 0) [] l = [] := by
        intro l
        induction l with
        | nil => rfl
        | cons p rest ih =>
          rw [List.foldl_cons]
          have hone : rr_push 0 [] p = [] := rfl
          rw [hone]
          exact ih
      simp only [split_round_robin, List.replicate] at he
      rw [hempty] at he
      simp only [List.foldl_nil] at he
      exact hwu e he
    · obtain ⟨-, -, hfacts⟩ := split_round_robin_facts (sort_by_file_size_desc kv.2) k hkpos
      refine foldl_split_step_preserve
        (fun e => ∀ img ∈ e.2, image_batch_key img = e.1) kv.1 mbs
        (split_round_robin (sort_by_file_size_desc kv.2) k) wu hwu ?_ ?_ e he
      · intro s hs img himg
        have hmem : img ∈ sort_by_file_size_desc kv.2 := (hfacts s hs).1 img himg
        have : img ∈ kv.2 := by
          unfold sort_by_file_size_desc at hmem
          exact (List.perm_insertionSort _ kv.2).mem_iff.mp hmem
        exact hkv img this
      · intro b l s hs hq hb img himg
        simp only at himg ⊢
        rcases List.mem_append.mp himg with h | h
        · exact hq img h
        · have hmem : img ∈ sort_by_file_size_desc kv.2 := (hfacts s hs).1 img h
          have : img ∈ kv.2 := by
            unfold sort_by_file_size_desc at hmem
            exact (List.perm_insertionSort _ kv.2).mem_iff.mp hmem
          rw [hb]
          exact hkv img this

theorem foldl_group_step_preserve_keyed (t mbs : Nat) :
    ∀ (bl : List (BatchKey × List Image)) (wu : List (BatchKey × List Image)),
      (∀ e ∈ wu, ∀ img ∈ e.2, image_batch_key img = e.1) →
      (∀ kv ∈ bl, ∀ img ∈ kv.2, image_batch_key img = kv.1) →
      ∀ e ∈ List.foldl (group_step t mbs) wu bl, ∀ img ∈ e.2, image_batch_key img = e.1 := by
  intro bl
  induction bl with
  | nil => intro wu hwu _ e he; exact hwu e he
  | cons kv rest ih =>
    intro wu hwu hbl e he
    rw [List.foldl_cons] at he
    exact ih (group_step t mbs wu kv)
      (group_step_preserve_keyed t mbs wu kv hwu (hbl kv (List.mem_cons_self _ _)))
      (fun e2 he2 => hbl e2 (List.mem_cons_of_mem kv he2)) e he

theorem add_to_entry_keyed (key : BatchKey) (img0 : Image) (hkey : image_batch_key img0 = key) :
    ∀ b : List (BatchKey × List Image),
      (∀ e ∈ b, ∀ img ∈ e.2, image_batch_key img = e.1) →
      ∀ e ∈ add_to_entry b key img0, ∀ img ∈ e.2, image_batch_key img = e.1 := by
  intro b
  induction b with
  | nil =>
    intro _ e he img himg
    simp [add_to_entry] at he
    rw [he] at himg ⊢
    simp at himg
    rw [himg, hkey]
  | cons kv rest ih =>
    intro hb e he img himg
    rw [add_to_entry] at he
    by_cases h : kv.1 = key
    · rw [if_pos h] at he
      rcases List.mem_cons.mp he with rfl | hmem
      · simp only at himg
        rcases List.mem_append.mp himg with h2 | h2
        · exact hb kv (List.mem_cons_self _ _) img h2
        · simp at h2
          rw [h2, hkey, ← h]
      · exact hb e (List.mem_cons_of_mem kv hmem) img himg
    · rw [if_neg h] at he
      rcases List.mem_cons.mp he with rfl | hmem
      · exact hb e (List.mem_cons_self _ _) img himg
      · exact ih (fun e2 he2 => hb e2 (List.mem_cons_of_mem kv he2)) e hmem img himg

theorem group_images_well_grouped (image_list : List Image) :
    ∀ e ∈ group_images_by_key image_list, ∀ img ∈ e.2, image_batch_key img = e.1 := by
  suffices h : ∀ (l : List Image) (b : List (BatchKey × List Image)),
      (∀ e ∈ b, ∀ img ∈ e.2, image_batch_key img = e.1) →
      ∀ e ∈ l.foldl (fun batches image =>
        add_to_entry batches (image_batch_key image) image) b,
        ∀ img ∈ e.2, image_batch_key img = e.1 by
    exact h image_list [] (by simp)
  intro l
  induction l with
  | nil => intro b hb e he; exact hb e he
  | cons x xs ih =>
    intro b hb e he
    rw [List.foldl_cons] at he
    exact ih _ (add_to_entry_keyed (image_batch_key x) x rfl b hb) e he

/-- Claim C7 (key invariant): every image placed in a work unit by
`split_batches_optimally` carries exactly the `(resolution, file_type)`
key of that unit, including images moved by the undersized-bucket merge
step, in whichever order the grouping `HashMap` iterates its groups. -/
theorem split_batches_key_invariant (image_list : List Image)
    (batches : List (BatchKey × List Image)) (target_threads : Nat)
    (hperm : batches.Perm (group_images_by_key image_list)) :
    ∀ key u, (key, u) ∈ split_batches_optimally batches target_threads →
      ∀ img ∈ u, image_batch_key img = key := by
  intro key u hu img himg
  rw [split_batches_optimally_def] at hu
  have hu' := (List.perm_insertionSort _ _).mem_iff.mp hu
  have hgrouped : ∀ e ∈ batches, ∀ img2 ∈ e.2, image_batch_key img2 = e.1 :=
    fun e he => group_images_well_grouped image_list e (hperm.mem_iff.mp he)
  exact foldl_group_step_preserve_keyed _ _ batches [] (by simp) hgrouped (key, u) hu' img himg

/-- Witness for C7 at a concrete input. -/
theorem split_batches_key_invariant_witness :
    (group_images_by_key exList3).Perm (group_images_by_key exList3) ∧
      (exKeyPng, [exImg 100 100 7 "png" "c"]) ∈
        split_batches_optimally (group_images_by_key exList3) 3 ∧
      exImg 100 100 7 "png" "c" ∈ [exImg 100 100 7 "png" "c"] ∧
      image_batch_key (exImg 100 100 7 "png" "c") = exKeyPng :=
  ⟨List.Perm.refl _, by decide, by decide,
    split_batches_key_invariant exList3 (group_images_by_key exList3) 3 (List.Perm.refl _)
      exKeyPng [exImg 100 100 7 "png" "c"] (by decide) (exImg 100 100 7 "png" "c") (by decide)⟩

/- ------------------------------------------------------------------ -/
/- Claims C2, C8, C9: the process registry.                            -/
/- ------------------------------------------------------------------ -/

/-- Claim C2 counterexample: with one registered process whose kill
attempt fails, `kill_all_processes` does clear the registry but returns
`Ok(())`, not the aggregated error the claim promises. -/
theorem kill_all_returns_ok_counterexample :
    ((fun _ => Except.error "kill failed" : Nat → Except String Unit) 42 =
      Except.error "kill failed") ∧
    (kill_all_processes (fun _ => Except.error "kill failed")
      { process_ids := [(0, 42)], next_id := 1, cancel_flag := false }).1.process_ids = [] ∧
    (kill_all_processes (fun _ => Except.error "kill failed")
      { process_ids := [(0, 42)], next_id := 1, cancel_flag := false }).2 = Except.ok () :=
  ⟨rfl, rfl, rfl⟩

/-- Claim C2 amended: `kill_all_processes` sets the cancel flag and clears
the registry regardless of individual kill failures, but it returns
`Ok(())` on every path — kill failures are only aggregated into a logged
warning, never into the returned `Result`. -/
theorem kill_all_clears_registry (kill : Nat → Except String Unit) (m : ProcessManager) :
    (kill_all_processes kill m).1.process_ids = [] ∧
      (kill_all_processes kill m).1.cancel_flag = true ∧
      (kill_all_processes kill m).2 = Except.ok () := by
  unfold kill_all_processes
  by_cases h : ({ m with cancel_flag := true } : ProcessManager).process_ids.length = 0
  · rw [if_pos h]
    refine ⟨?_, rfl, rfl⟩
    simpa using List.length_eq_zero.mp h
  · rw [if_neg h]
    exact ⟨rfl, rfl, rfl⟩

theorem lookup_cons (a : Nat) (kv : Nat × Nat) (l : List (Nat × Nat)) :
    (kv :: l).lookup a = if a = kv.1 then some kv.2 else l.lookup a := by
  rcases kv with ⟨k, v⟩
  by_cases h : a = k
  · subst h
    simp [List.lookup]
  · have hb : (a == k) = false := by simpa using h
    simp [List.lookup, hb, h]

theorem lookup_none_eraseP (id : Nat) :
    ∀ l : List (Nat × Nat), l.lookup id = none → l.eraseP (fun kv => kv.1 == id) = l := by
  intro l
  induction l with
  | nil => intro _; rfl
  | cons kv rest ih =>
    intro h
    rw [lookup_cons] at h
    by_cases hk : id = kv.1
    · rw [if_pos hk] at h
      exact absurd h (by simp)
    · rw [if_neg hk] at h
      have hb : (kv.1 == id) = false := by simp; omega
      rw [List.eraseP_cons, hb, cond_false]
      rw [ih h]

theorem lookup_eq_none_of_not_mem (id : Nat) :
    ∀ l : List (Nat × Nat), id ∉ l.map Prod.fst → l.lookup id = none := by
  intro l
  induction l with
  | nil => intro _; rfl
  | cons kv rest ih =>
    intro h
    rw [List.map_cons] at h
    rw [lookup_cons, if_neg ?_]
    · exact ih (fun hc => h (List.mem_cons_of_mem _ hc))
    · intro hc
      exact h (by rw [hc]; exact List.mem_cons_self _ _)

theorem lookup_some_eraseP (id pid : Nat) :
    ∀ l : List (Nat × Nat), (l.map Prod.fst).Nodup → l.lookup id = some pid →
      ((l.eraseP (fun kv => kv.1 == id)).lookup id = none ∧
       (∀ id', id' ≠ id →
         (l.eraseP (fun kv => kv.1 == id)).lookup id' = l.lookup id') ∧
       (l.eraseP (fun kv => kv.1 == id)).length + 1 = l.length) := by
  intro l
  induction l with
  | nil => intro _ h; exact absurd h (by simp [List.lookup])
  | cons kv rest ih =>
    intro hnod h
    rw [List.map_cons, List.nodup_cons] at hnod
    by_cases hk : kv.1 = id
    · have herase : (kv :: rest).eraseP (fun kv => kv.1 == id) = rest := by
        have hb : (kv.1 == id) = true := by simpa using hk
        rw [List.eraseP_cons, hb, cond_true]
      rw [herase]
      refine ⟨?_, ?_, by simp⟩
      · apply lookup_eq_none_of_not_mem
        rw [← hk]
        exact hnod.1
      · intro id' hne
        rw [lookup_cons, if_neg (by omega)]
    · rw [lookup_cons, if_neg (by omega)] at h
      obtain ⟨h1, h2, h3⟩ := ih hnod.2 h
      have herase : (kv :: rest).eraseP (fun kv => kv.1 == id) =
          kv :: rest.eraseP (fun kv => kv.1 == id) := by
        have hb : (kv.1 == id) = false := by simpa using hk
        rw [List.eraseP_cons, hb, cond_false]
      rw [herase]
      refine ⟨?_, ?_, by simpa using h3⟩
      · rw [lookup_cons, if_neg (by omega)]
        exact h1
      · intro id' hne
        rw [lookup_cons, lookup_cons]
        by_cases hq : id' = kv.1
        · rw [if_pos hq, if_pos hq]
        · rw [if_neg hq, if_neg hq]
          exact h2 id' hne

/-- Claim C8: `unregister_process` with an absent id only logs a warning
(the boolean component) and leaves the registry untouched — the Rust
function returns `()` and has no error path — while with a present id it
removes exactly that one mapping: that id no longer resolves, every other
id resolves as before, and the registry shrinks by exactly one entry. -/
theorem unregister_process_spec (m : ProcessManager) (id : Nat)
    (hnod : (m.process_ids.map Prod.fst).Nodup) :
    (m.process_ids.lookup id = none → unregister_process id m = (m, true)) ∧
    (∀ pid, m.process_ids.lookup id = some pid →
      (unregister_process id m).2 = false ∧
      (unregister_process id m).1.process_ids.lookup id = none ∧
      (∀ id', id' ≠ id →
        (unregister_process id m).1.process_ids.lookup id' = m.process_ids.lookup id') ∧
      (unregister_process id m).1.process_ids.length + 1 = m.process_ids.length) := by
  constructor
  · intro h
    unfold unregister_process
    rw [h]
  · intro pid h
    unfold unregister_process
    rw [h]
    obtain ⟨h1, h2, h3⟩ := lookup_some_eraseP id pid m.process_ids hnod h
    exact ⟨rfl, h1, h2, h3⟩

/-- Witness for C8: a two-entry registry; id 5 is absent, id 1 is present. -/
theorem unregister_process_spec_witness :
    (([(0, 10), (1, 11)] : List (Nat × Nat)).map Prod.fst).Nodup ∧
      (([(0, 10), (1, 11)] : List (Nat × Nat)).lookup 5 = none →
        unregister_process 5
          ({ process_ids := [(0, 10), (1, 11)], next_id := 2, cancel_flag := false }) =
          ({ process_ids := [(0, 10), (1, 11)], next_id := 2, cancel_flag := false }, true)) :=
  ⟨by decide,
    (unregister_process_spec
      ({ process_ids := [(0, 10), (1, 11)], next_id := 2, cancel_flag := false }) 5
      (by decide)).1⟩

theorem run_pm_op_next_id (m : ProcessManager) (op : PmOp) :
    m.next_id ≤ (run_pm_op m op).1.next_id := by
  cases op with
  | register pid => simp [run_pm_op, register_process_by_pid]
  | unregister id =>
    simp only [run_pm_op]
    unfold unregister_process
    cases m.process_ids.lookup id <;> simp
  | requestCancel => exact Nat.le_refl _
  | clear => exact Nat.le_refl _
  | killAll kill =>
    simp only [run_pm_op]
    unfold kill_all_processes
    by_cases h : ({ m with cancel_flag := true } : ProcessManager).process_ids.length = 0
    · rw [if_pos h]
    · rw [if_neg h]

theorem run_pm_ops_trace :
    ∀ (ops : List PmOp) (m : ProcessManager),
      (∀ id ∈ (run_pm_ops m ops).2, m.next_id ≤ id) ∧
        (run_pm_ops m ops).2.Pairwise (· < ·) := by
  intro ops
  induction ops with
  | nil => intro m; simp [run_pm_ops]
  | cons op rest ih =>
    intro m
    rw [run_pm_ops]
    cases op with
    | register pid =>
      obtain ⟨hub, hpw⟩ := ih (run_pm_op m (PmOp.register pid)).1
      have hnext : (run_pm_op m (PmOp.register pid)).1.next_id = m.next_id + 1 := rfl
      have htrace : (run_pm_op m (PmOp.register pid)).2 = some m.next_id := rfl
      rw [hnext] at hub
      constructor
      · intro id hid
        simp only [htrace] at hid
        rcases List.mem_cons.mp (by simpa using hid) with h | h
        · omega
        · have := hub id h
          omega
      · simp only [htrace]
        refine List.Pairwise.cons ?_ hpw
        intro id hid
        have := hub id hid
        omega
    | unregister id0 =>
      obtain ⟨hub, hpw⟩ := ih (run_pm_op m (PmOp.unregister id0)).1
      have hnext := run_pm_op_next_id m (PmOp.unregister id0)
      have htrace : (run_pm_op m (PmOp.unregister id0)).2 = none := rfl
      simp only [htrace]
      refine ⟨fun id hid => ?_, by simpa using hpw⟩
      have := hub id (by simpa using hid)
      omega
    | requestCancel =>
      obtain ⟨hub, hpw⟩ := ih (run_pm_op m PmOp.requestCancel).1
      have htrace : (run_pm_op m PmOp.requestCancel).2 = none := rfl
      simp only [htrace]
      refine ⟨fun id hid => hub id (by simpa using hid), by simpa using hpw⟩
    | clear =>
      obtain ⟨hub, hpw⟩ := ih (run_pm_op m PmOp.clear).1
      have htrace : (run_pm_op m PmOp.clear).2 = none := rfl
      simp only [htrace]
      refine ⟨fun id hid => hub id (by simpa using hid), by simpa using hpw⟩
    | killAll kill =>
      obtain ⟨hub, hpw⟩ := ih (run_pm_op m (PmOp.killAll kill)).1
      have hnext := run_pm_op_next_id m (PmOp.killAll kill)
      have htrace : (run_pm_op m (PmOp.killAll kill)).2 = none := rfl
      simp only [htrace]
      refine ⟨fun id hid => ?_, by simpa using hpw⟩
      have := hub id (by simpa using hid)
      omega

/-- Claim C9: over any sequence of operations on a fresh `ProcessManager`
— registrations, unregistrations, cancel requests, `clear`s and
`kill_all_processes` sweeps — the logical ids handed out by
`register_process_by_pid` are strictly increasing and hence never reused,
because no operation rewinds `next_id`. -/
theorem register_ids_strictly_increasing (ops : List PmOp) :
    (run_pm_ops ProcessManager.new ops).2.Pairwise (· < ·) :=
  (run_pm_ops_trace ops ProcessManager.new).2

/- ------------------------------------------------------------------ -/
/- Claims C4 and C10: the progress tracker.                            -/
/- ------------------------------------------------------------------ -/

/-- Claim C4 counterexample: a single `increment` on a fresh tracker whose
total was never set leaves `current = 1 > 0 = total`; the tracker never
clamps, so `current ≤ total` is not an invariant of arbitrary operation
sequences. -/
theorem progress_current_le_total_counterexample :
    ¬ ((run_tracker_ops (ProgressInfo.new "processing" none)
        [TrackerOp.increment none 1]).current ≤
      (run_tracker_ops (ProgressInfo.new "processing" none)
        [TrackerOp.increment none 1]).total) := by
  decide

theorem update_calculations_current (elapsed : ℚ) (info : ProgressInfo) :
    (update_calculations elapsed info).1.current = info.current := rfl

theorem update_calculations_total (elapsed : ℚ) (info : ProgressInfo) :
    (update_calculations elapsed info).1.total = info.total := rfl

theorem run_increments_current_total :
    ∀ (incs : List (Option Nat × ℚ)) (info : ProgressInfo),
      (run_tracker_ops info (incs.map (fun p => TrackerOp.increment p.1 p.2))).current =
        info.current + (incs.map (fun p => p.1.getD 1)).sum ∧
      (run_tracker_ops info (incs.map (fun p => TrackerOp.increment p.1 p.2))).total =
        info.total := by
  intro incs
  induction incs with
  | nil => intro info; simp [run_tracker_ops]
  | cons p rest ih =>
    intro info
    unfold run_tracker_ops at *
    rw [List.map_cons, List.foldl_cons]
    have hstep : (run_tracker_op info (TrackerOp.increment p.1 p.2)).current =
        info.current + p.1.getD 1 :=
      update_calculations_current _ _
    have hstept : (run_tracker_op info (TrackerOp.increment p.1 p.2)).total = info.total :=
      update_calculations_total _ _
    obtain ⟨h1, h2⟩ := ih (run_tracker_op info (TrackerOp.increment p.1 p.2))
    rw [h1, h2, hstep, hstept, List.map_cons, List.sum_cons]
    omega

/-- Claim C4 amended: `current ≤ total` is not maintained for arbitrary
operation sequences (no operation clamps), but it does hold for the
pipeline's usage pattern: set the total first, then apply increments whose
values sum to at most that total. -/
theorem progress_current_le_total_of_bounded_increments (status : String)
    (total0 : Option Nat) (n : Nat) (e0 : ℚ) (incs : List (Option Nat × ℚ))
    (hsum : (incs.map (fun p => p.1.getD 1)).sum ≤ n) :
    (run_tracker_ops (ProgressInfo.new status total0)
      (TrackerOp.setTotal n e0 :: incs.map (fun p => TrackerOp.increment p.1 p.2))).current ≤
    (run_tracker_ops (ProgressInfo.new status total0)
      (TrackerOp.setTotal n e0 :: incs.map (fun p => TrackerOp.increment p.1 p.2))).total := by
  unfold run_tracker_ops
  rw [List.foldl_cons]
  have hst : (run_tracker_op (ProgressInfo.new status total0)
      (TrackerOp.setTotal n e0)).current = 0 := rfl
  have hstt : (run_tracker_op (ProgressInfo.new status total0)
      (TrackerOp.setTotal n e0)).total = n := rfl
  obtain ⟨h1, h2⟩ := run_increments_current_total incs
    (run_tracker_op (ProgressInfo.new status total0) (TrackerOp.setTotal n e0))
  unfold run_tracker_ops at h1 h2
  rw [h1, h2, hst, hstt]
  omega

/-- Witness for the amended C4. -/
theorem progress_current_le_total_witness :
    (([((some 1 : Option Nat), (1 : ℚ)), (none, 2)].map
        (fun p => p.1.getD 1)).sum ≤ 2) ∧
      (run_tracker_ops (ProgressInfo.new "processing" none)
        (TrackerOp.setTotal 2 0 :: [((some 1 : Option Nat), (1 : ℚ)), (none, 2)].map
          (fun p => TrackerOp.increment p.1 p.2))).current ≤
      (run_tracker_ops (ProgressInfo.new "processing" none)
        (TrackerOp.setTotal 2 0 :: [((some 1 : Option Nat), (1 : ℚ)), (none, 2)].map
          (fun p => TrackerOp.increment p.1 p.2))).total :=
  ⟨by decide,
    progress_current_le_total_of_bounded_increments "processing" none 2 0
      [((some 1 : Option Nat), (1 : ℚ)), (none, 2)] (by decide)⟩

theorem uc_rate (elapsed : ℚ) (info : ProgressInfo) :
    (update_calculations elapsed info).1.items_per_second =
      if 0 < elapsed then (info.current : ℚ) / elapsed else info.items_per_second := by
  unfold update_calculations trackedDiv
  simp only
  split_ifs <;> rfl

theorem uc_pct (elapsed : ℚ) (info : ProgressInfo) :
    (update_calculations elapsed info).1.percentage =
      if 0 < info.total then (info.current : ℚ) / (info.total : ℚ) * 100 else 0 := by
  unfold update_calculations trackedDiv
  simp only
  split_ifs <;> rfl

theorem uc_er (elapsed : ℚ) (info : ProgressInfo) :
    (update_calculations elapsed info).1.estimated_remaining =
      if 0 < info.current ∧ info.current < info.total ∧
          0 < (update_calculations elapsed info).1.items_per_second then
        some (((info.total - info.current : Nat) : ℚ) /
          (update_calculations elapsed info).1.items_per_second)
      else none := by
  unfold update_calculations trackedDiv
  simp only
  split_ifs <;> (try rfl) <;> (rw [apply_ite Prod.fst]; try rfl)

theorem uc_flag (elapsed : ℚ) (info : ProgressInfo) :
    (update_calculations elapsed info).2 = false := by
  unfold update_calculations trackedDiv
  dsimp only
  split_ifs <;>
    simp only [Bool.or_eq_false_iff, decide_eq_false_iff_not, ne_eq] <;>
    refine ⟨⟨?_, ?_⟩, ?_⟩ <;>
      first
        | trivial
        | (intro hc; rw [Nat.cast_eq_zero] at hc; omega)
        | (intro hc; simp_all)

/-- Claim C10: `update_calculations` performs no division by zero for any
state and any elapsed time (the instrumented flag stays `false`): the
percentage falls back to `0` when `total = 0`, the rate is only
recomputed when the elapsed time is strictly positive, and the ETA is only
computed — as `(total − current) / rate` — when `0 < current < total` and
the (just-updated) rate is strictly positive; otherwise it is `none`. -/
theorem update_calculations_no_div_by_zero (elapsed : ℚ) (info : ProgressInfo) :
    (update_calculations elapsed info).2 = false ∧
      (info.total = 0 → (update_calculations elapsed info).1.percentage = 0) ∧
      (¬ 0 < elapsed →
        (update_calculations elapsed info).1.items_per_second = info.items_per_second) ∧
      (0 < elapsed →
        (update_calculations elapsed info).1.items_per_second = (info.current : ℚ) / elapsed) ∧
      ((update_calculations elapsed info).1.estimated_remaining =
        if 0 < info.current ∧ info.current < info.total ∧
            0 < (update_calculations elapsed info).1.items_per_second then
          some (((info.total - info.current : Nat) : ℚ) /
            (update_calculations elapsed info).1.items_per_second)
        else none) :=
  ⟨uc_flag elapsed info,
   fun h0 => by rw [uc_pct, if_neg (by omega)],
   fun hne => by rw [uc_rate, if_neg hne],
   fun hpos => by rw [uc_rate, if_pos hpos],
   uc_er elapsed info⟩

/-- Witness instantiating the C10 theorem at a concrete state. -/
theorem update_calculations_no_div_by_zero_witness :
    (update_calculations 1 (ProgressInfo.new "processing" (some 4))).2 = false ∧
      ((ProgressInfo.new "processing" (some 4)).total = 0 →
        (update_calculations 1 (ProgressInfo.new "processing" (some 4))).1.percentage = 0) ∧
      (¬ (0 : ℚ) < 1 →
        (update_calculations 1 (ProgressInfo.new "processing" (some 4))).1.items_per_second =
          (ProgressInfo.new "processing" (some 4)).items_per_second) ∧
      ((0 : ℚ) < 1 →
        (update_calculations 1 (ProgressInfo.new "processing" (some 4))).1.items_per_second =
          ((ProgressInfo.new "processing" (some 4)).current : ℚ) / 1) ∧
      ((update_calculations 1 (ProgressInfo.new "processing" (some 4))).1.estimated_remaining =
        if 0 < (ProgressInfo.new "processing" (some 4)).current ∧
            (ProgressInfo.new "processing" (some 4)).current <
              (ProgressInfo.new "processing" (some 4)).total ∧
            0 < (update_calculations 1
              (ProgressInfo.new "processing" (some 4))).1.items_per_second then
          some ((((ProgressInfo.new "processing" (some 4)).total -
              (ProgressInfo.new "processing" (some 4)).current : Nat) : ℚ) /
            (update_calculations 1
              (ProgressInfo.new "processing" (some 4))).1.items_per_second)
        else none) :=
  update_calculations_no_div_by_zero 1 (ProgressInfo.new "processing" (some 4))

/- ------------------------------------------------------------------ -/
/- Claim C5: determinism across `HashMap` iteration orders.            -/
/- ------------------------------------------------------------------ -/

/-- The jpeg key of the examples. -/
def exKeyJpeg : BatchKey := { resolution := { width := 200, height := 200 }, file_type := "jpeg" }

/-- One iteration order of a two-group map. -/
def exB1 : List (BatchKey × List Image) :=
  [(exKeyPng, [exImg 100 100 5 "png" "a"]), (exKeyJpeg, [exImg 200 200 7 "jpeg" "f"])]

/-- The other iteration order of the same map. -/
def exB2 : List (BatchKey × List Image) :=
  [(exKeyJpeg, [exImg 200 200 7 "jpeg" "f"]), (exKeyPng, [exImg 100 100 5 "png" "a"])]

/-- Claim C5 counterexample: the same two-group map presented in its two
possible `HashMap` iteration orders (two runs over identical input)
produces different unit-key sequences, because the final sort is stable
and both units have size 1. -/
theorem split_batches_determinism_counterexample :
    exB1.Perm exB2 ∧
      (split_batches_optimally exB1 1).map Prod.fst ≠
        (split_batches_optimally exB2 1).map Prod.fst := by
  constructor
  · decide
  · decide

theorem extend_last_append (key : BatchKey) (s : List Image) :
    ∀ (wu loc : List (BatchKey × List Image)), (∀ e ∈ wu, e.1 ≠ key) →
      extend_last_with_key key s (wu ++ loc) =
        (extend_last_with_key key s loc).map (wu ++ ·) := by
  intro wu
  induction wu with
  | nil =>
    intro loc _
    rw [List.nil_append]
    cases hrec : extend_last_with_key key s loc with
    | some l2 => rfl
    | none => rfl
  | cons u rest ih =>
    intro loc hkeys
    rw [List.cons_append, extend_last_with_key,
      ih loc (fun e he => hkeys e (List.mem_cons_of_mem u he))]
    cases hrec : extend_last_with_key key s loc with
    | some l2 => rfl
    | none =>
      rw [if_neg (hkeys u (List.mem_cons_self _ _))]
      rfl

theorem merge_append (key : BatchKey) (s : List Image)
    (wu loc : List (BatchKey × List Image)) (hkeys : ∀ e ∈ wu, e.1 ≠ key) :
    merge_with_last_unit (wu ++ loc) key s = wu ++ merge_with_last_unit loc key s := by
  unfold merge_with_last_unit
  rw [extend_last_append key s wu loc hkeys]
  cases extend_last_with_key key s loc with
  | some l2 => rfl
  | none => rw [Option.map_none', List.append_assoc]

theorem split_step_append (key : BatchKey) (mbs : Nat) (s : List Image)
    (wu loc : List (BatchKey × List Image)) (hkeys : ∀ e ∈ wu, e.1 ≠ key) :
    split_step key mbs (wu ++ loc) s = wu ++ split_step key mbs loc s := by
  unfold split_step
  split_ifs
  · rw [List.append_assoc]
  · exact merge_append key s wu loc hkeys
  · rfl

theorem foldl_split_step_append (key : BatchKey) (mbs : Nat)
    (wu : List (BatchKey × List Image)) (hkeys : ∀ e ∈ wu, e.1 ≠ key) :
    ∀ (splits : List (List Image)) (loc : List (BatchKey × List Image)),
      List.foldl (split_step key mbs) (wu ++ loc) splits =
        wu ++ List.foldl (split_step key mbs) loc splits := by
  intro splits
  induction splits with
  | nil => intro loc; rfl
  | cons s rest ih =>
    intro loc
    rw [List.foldl_cons, List.foldl_cons,
      split_step_append key mbs s wu loc hkeys, ih]

theorem group_step_append (t mbs : Nat) (wu : List (BatchKey × List Image))
    (kv : BatchKey × List Image) (hkeys : ∀ e ∈ wu, e.1 ≠ kv.1) :
    group_step t mbs wu kv = wu ++ group_step t mbs [] kv := by
  unfold group_step
  split_ifs
  · rfl
  · dsimp only
    have h0 : wu = wu ++ [] := (List.append_nil wu).symm
    conv_lhs => rw [h0]
    rw [foldl_split_step_append kv.1 mbs wu hkeys]

theorem group_step_nil_keys (t mbs : Nat) (kv : BatchKey × List Image) :
    ∀ e ∈ group_step t mbs [] kv, e.1 = kv.1 := by
  intro e he
  unfold group_step at he
  by_cases h : kv.2.length ≤ t
  · rw [if_pos h] at he
    simp at he
    rw [he]
  · rw [if_neg h] at he
    exact foldl_split_step_preserve (fun e => e.1 = kv.1) kv.1 mbs _ []
      (by simp) (fun s _ => rfl) (fun b l s _ hq hb => hb) e he

theorem foldl_group_step_flatMap (t mbs : Nat) :
    ∀ (bl : List (BatchKey × List Image)) (wu : List (BatchKey × List Image)),
      (bl.map Prod.fst).Nodup → (∀ e ∈ wu, e.1 ∉ bl.map Prod.fst) →
      bl.foldl (group_step t mbs) wu =
        wu ++ bl.flatMap (fun kv => group_step t mbs [] kv) := by
  intro bl
  induction bl with
  | nil => intro wu _ _; simp
  | cons kv rest ih =>
    intro wu hnod hwu
    rw [List.map_cons, List.nodup_cons] at hnod
    rw [List.foldl_cons, group_step_append t mbs wu kv
      (fun e he hc => hwu e he (by rw [List.map_cons, hc]; exact List.mem_cons_self _ _))]
    rw [ih (wu ++ group_step t mbs [] kv) hnod.2 ?_]
    · rw [List.append_assoc, List.flatMap_cons]
    · intro e he
      rcases List.mem_append.mp he with h | h
      · exact fun hc => hwu e h (by rw [List.map_cons]; exact List.mem_cons_of_mem _ hc)
      · rw [group_step_nil_keys t mbs kv e h]
        exact hnod.1

/-- Claim C5 amended: across any two `HashMap` iteration orders of the
same grouped input (and the same `T`), `split_batches_optimally` yields
the same sequence of unit sizes and the same multiset of (key, size)
pairs; only the relative order of equal-sized units' keys can differ
between runs. -/
theorem split_batches_determinism_amended (b1 b2 : List (BatchKey × List Image)) (T : Nat)
    (hnod : (b1.map Prod.fst).Nodup) (hperm : b1.Perm b2) :
    ((split_batches_optimally b1 T).map (fun kv => kv.2.length) =
      (split_batches_optimally b2 T).map (fun kv => kv.2.length)) ∧
    ((split_batches_optimally b1 T).map (fun kv => (kv.1, kv.2.length))).Perm
      ((split_batches_optimally b2 T).map (fun kv => (kv.1, kv.2.length))) := by
  have hsum : (b1.map (fun kv => kv.2.length)).sum = (b2.map (fun kv => kv.2.length)).sum :=
    (hperm.map _).sum_eq
  have ht : target_per_unit b2 T = target_per_unit b1 T := by
    unfold target_per_unit
    rw [hsum]
  have hm : min_unit_size b2 T = min_unit_size b1 T := by
    unfold min_unit_size
    rw [ht]
  have hnod2 : (b2.map Prod.fst).Nodup := (hperm.map Prod.fst).nodup_iff.mp hnod
  have h1 : split_batches_optimally b1 T =
      sort_units_by_size_desc (b1.flatMap (fun kv =>
        group_step (target_per_unit b1 T) (min_unit_size b1 T) [] kv)) := by
    rw [split_batches_optimally_def, foldl_group_step_flatMap _ _ b1 [] hnod (by simp),
      List.nil_append]
  have h2 : split_batches_optimally b2 T =
      sort_units_by_size_desc (b2.flatMap (fun kv =>
        group_step (target_per_unit b1 T) (min_unit_size b1 T) [] kv)) := by
    rw [split_batches_optimally_def, foldl_group_step_flatMap _ _ b2 [] hnod2 (by simp),
      List.nil_append, ht, hm]
  have hperm_units : (split_batches_optimally b1 T).Perm (split_batches_optimally b2 T) := by
    rw [h1, h2]
    have p1 := List.perm_insertionSort
      (fun (a b : BatchKey × List Image) => b.2.length ≤ a.2.length)
      (b1.flatMap (fun kv => group_step (target_per_unit b1 T) (min_unit_size b1 T) [] kv))
    have p2 := List.perm_insertionSort
      (fun (a b : BatchKey × List Image) => b.2.length ≤ a.2.length)
      (b2.flatMap (fun kv => group_step (target_per_unit b1 T) (min_unit_size b1 T) [] kv))
    have pmid := hperm.flatMap_right
      (fun kv => group_step (target_per_unit b1 T) (min_unit_size b1 T) [] kv)
    exact ((p1.trans pmid).trans p2.symm)
  refine ⟨?_, hperm_units.map _⟩
  haveI hto : IsTotal (BatchKey × List Image) (fun a b => b.2.length ≤ a.2.length) :=
    ⟨fun a b => (le_total b.2.length a.2.length)⟩
  haveI htr : IsTrans (BatchKey × List Image) (fun a b => b.2.length ≤ a.2.length) :=
    ⟨fun a b c hab hbc => le_trans hbc hab⟩
  have hs1 : (split_batches_optimally b1 T).Sorted
      (fun a b => b.2.length ≤ a.2.length) := by
    rw [h1]
    exact List.sorted_insertionSort _ _
  have hs2 : (split_batches_optimally b2 T).Sorted
      (fun a b => b.2.length ≤ a.2.length) := by
    rw [h2]
    exact List.sorted_insertionSort _ _
  haveI han : IsAntisymm Nat (fun a b => b ≤ a) := ⟨fun a b hab hba => le_antisymm hba hab⟩
  have hm1 : ((split_batches_optimally b1 T).map (fun kv => kv.2.length)).Pairwise
      (fun a b => b ≤ a) := List.Pairwise.map _ (fun a b h => h) hs1
  have hm2 : ((split_batches_optimally b2 T).map (fun kv => kv.2.length)).Pairwise
      (fun a b => b ≤ a) := List.Pairwise.map _ (fun a b h => h) hs2
  exact List.eq_of_perm_of_sorted (hperm_units.map _) hm1 hm2

/-- Witness for the amended C5. -/
theorem split_batches_determinism_amended_witness :
    (exB1.map Prod.fst).Nodup ∧ exB1.Perm exB2 ∧
      ((split_batches_optimally exB1 1).map (fun kv => kv.2.length) =
        (split_batches_optimally exB2 1).map (fun kv => kv.2.length)) :=
  ⟨by decide, by decide,
    (split_batches_determinism_amended exB1 exB2 1 (by decide) (by decide)).1⟩

/- ------------------------------------------------------------------ -/
/- Claim C6: chunk failure behaviour of the command builder.           -/
/- ------------------------------------------------------------------ -/

/-- The commands produced by a chunk list up to (and excluding) the first
failing chunk, together with the overall result: the commands of the
chunks before the first failure, and that failure (or success). -/
def chunk_outcomes (logo : Option Logo) (target_resolution : Resolution)
    (target_file_type : String) (cancelled : Bool) :
    List (List (Image × PathBuf)) → List FfmpegBatchCommand × Except String Unit
  | [] => ([], Except.ok ())
  | c :: rest =>
    match create_image_ffmpeg_command c logo target_resolution target_file_type cancelled with
    | Except.error e => ([], Except.error e)
    | Except.ok cmd =>
      let r := chunk_outcomes logo target_resolution target_file_type cancelled rest
      (cmd :: r.1, r.2)

theorem foldl_chunk_step_error (logo : Option Logo) (res : Resolution) (ft : String)
    (cancelled : Bool) :
    ∀ (cs : List (List (Image × PathBuf))) (lst : List FfmpegBatchCommand) (e : String),
      cs.foldl (chunk_step logo res ft cancelled) (lst, Except.error e) =
        (lst, Except.error e) := by
  intro cs
  induction cs with
  | nil => intro lst e; rfl
  | cons c rest ih =>
    intro lst e
    rw [List.foldl_cons]
    have hstep : chunk_step logo res ft cancelled (lst, Except.error e) c =
        (lst, Except.error e) := rfl
    rw [hstep, ih]

theorem foldl_chunk_step (logo : Option Logo) (res : Resolution) (ft : String)
    (cancelled : Bool) :
    ∀ (cs : List (List (Image × PathBuf))) (lst : List FfmpegBatchCommand),
      cs.foldl (chunk_step logo res ft cancelled) (lst, Except.ok ()) =
        (lst ++ (chunk_outcomes logo res ft cancelled cs).1,
          (chunk_outcomes logo res ft cancelled cs).2) := by
  intro cs
  induction cs with
  | nil => intro lst; simp [chunk_outcomes]
  | cons c rest ih =>
    intro lst
    rw [List.foldl_cons]
    cases hc : create_image_ffmpeg_command c logo res ft cancelled with
    | error e =>
      have hstep : chunk_step logo res ft cancelled (lst, Except.ok ()) c =
          (lst, Except.error e) := by
        simp [chunk_step, hc]
      have hbuild : chunk_outcomes logo res ft cancelled (c :: rest) =
          ([], Except.error e) := by
        conv_lhs => rw [chunk_outcomes]
        rw [hc]
      rw [hstep, foldl_chunk_step_error, hbuild]
      simp
    | ok cmd =>
      have hstep : chunk_step logo res ft cancelled (lst, Except.ok ()) c =
          (lst ++ [cmd], Except.ok ()) := by
        simp [chunk_step, hc]
      have hbuild : chunk_outcomes logo res ft cancelled (c :: rest) =
          (cmd :: (chunk_outcomes logo res ft cancelled rest).1,
            (chunk_outcomes logo res ft cancelled rest).2) := by
        conv_lhs => rw [chunk_outcomes]
        rw [hc]
      rw [hstep, ih (lst ++ [cmd]), hbuild]
      simp

/-- Claim C6 amended: when a work unit is chunked into several encoder
commands, the chunks built before the first failing chunk keep their
commands in the output list, while the failing chunk and every chunk
after it yield no command — the `?` on the failing chunk aborts the rest
of the unit and the error is returned. -/
theorem command_list_chunk_outcomes (first : Image × PathBuf)
    (rest : List (Image × PathBuf)) (logo : Option Logo) (cancelled : Bool)
    (lst : List FfmpegBatchCommand)
    (hlen : CHUNK_SIZE < (first :: rest).length) :
    create_image_ffmpeg_command_list (first :: rest) logo cancelled lst =
      (lst ++ (chunk_outcomes logo first.1.resolution first.1.file_type cancelled
          ((first :: rest).toChunks
            (divCeil (first :: rest).length
              (divCeil (first :: rest).length CHUNK_SIZE)))).1,
        (chunk_outcomes logo first.1.resolution first.1.file_type cancelled
          ((first :: rest).toChunks
            (divCeil (first :: rest).length
              (divCeil (first :: rest).length CHUNK_SIZE)))).2) := by
  unfold create_image_ffmpeg_command_list
  dsimp only
  rw [if_neg (by omega)]
  exact foldl_chunk_step logo first.1.resolution first.1.file_type cancelled _ lst

/-- An output directory for the C6 examples. -/
def exOut : PathBuf := exPath "out"

/-- A non-UTF-8-representable source path: `to_str()` fails. -/
def exBadPath : PathBuf := { utf8 := false, str := "", stemUtf8 := true, stem := "bad" }

/-- The image with the non-representable path. -/
def exBadImg : Image :=
  { file_path := exBadPath, resolution := { width := 100, height := 100 },
    file_size := 1, file_type := "png" }

/-- A representable batch entry. -/
def exGoodPair (i : Nat) : Image × PathBuf :=
  (exImg 100 100 1 "png" ("g" ++ toString i), exOut)

/-- An 11-item unit whose first item (so: first chunk) has the bad path. -/
def exBadBatch : List (Image × PathBuf) :=
  (exBadImg, exOut) :: (List.range 10).map exGoodPair

/-- Claim C6 counterexample: `exBadBatch` is chunked into two chunks (6 + 5
items) and only the first chunk owns the non-representable path, yet the
call yields no command at all — the second chunk, which would succeed on
its own, is never built. -/
theorem chunk_failure_counterexample :
    (create_image_ffmpeg_command_list exBadBatch none false []).1.length = 0 ∧
      (create_image_ffmpeg_command_list exBadBatch none false []).2 =
        Except.error "Invalid image file path" ∧
      (create_image_ffmpeg_command (exBadBatch.drop 6) none
        { width := 100, height := 100 } "png" false).isOk = true := by
  exact ⟨rfl, rfl, rfl⟩

/-- The 11 representable entries used by the C6 witness. -/
def exGoodTail : List (Image × PathBuf) := (List.range 10).map (fun i => exGoodPair (i + 1))

/-- Witness for the amended C6 at a fully representable 11-item unit. -/
theorem command_list_chunk_outcomes_witness :
    CHUNK_SIZE < (exGoodPair 0 :: exGoodTail).length ∧
      create_image_ffmpeg_command_list (exGoodPair 0 :: exGoodTail) none false [] =
        ([] ++ (chunk_outcomes none (exGoodPair 0).1.resolution
            (exGoodPair 0).1.file_type false
            ((exGoodPair 0 :: exGoodTail).toChunks
              (divCeil (exGoodPair 0 :: exGoodTail).length
                (divCeil (exGoodPair 0 :: exGoodTail).length CHUNK_SIZE)))).1,
          (chunk_outcomes none (exGoodPair 0).1.resolution
            (exGoodPair 0).1.file_type false
            ((exGoodPair 0 :: exGoodTail).toChunks
              (divCeil (exGoodPair 0 :: exGoodTail).length
                (divCeil (exGoodPair 0 :: exGoodTail).length CHUNK_SIZE)))).2) :=
  ⟨by decide,
    command_list_chunk_outcomes (exGoodPair 0) exGoodTail none false [] (by decide)⟩
